import Mathlib

/-!
Shallow embedding of `src/ag.py` (class `RedeDisciplinas`): a directed graph of
course prerequisites.  The Python attribute `_pre_reqs : Dict[str, Set[str]]`
maps each course to the set of its direct prerequisites; an edge `A -> B`
(`A ∈ _pre_reqs[B]`) means `A` is a direct prerequisite of `B`.

Modelling choices:
* the dict is an association list in key-insertion order;
* each Python `set` of strings is a duplicate-free list (Python set iteration
  order is unspecified, so any fixed order is a faithful choice; all the
  verified properties are order-independent);
* Python exceptions (`KeyError` for an unknown course, `CycleError`) become an
  `Except Err` result;
* the `while` loops of the source become well-founded recursive functions.
-/

/-- The `_pre_reqs` dictionary of `RedeDisciplinas`: one entry per course,
holding the list (set) of its direct prerequisites. -/
abbrev RedeDisciplinas : Type := List (String × List String)

/-- The two exceptions raised by `ag.py`: `KeyError("Disciplina desconhecida")`
and `CycleError`. -/
inductive Err where
  | unknownCourse : Err
  | cycleDetected : Err
deriving DecidableEq, Repr

/-- The keys of `_pre_reqs`: the known courses. -/
def chaves (g : RedeDisciplinas) : List String := g.map Prod.fst

/-- `self._pre_reqs.get(d, set())`: the stored prerequisite set of `d`,
empty when `d` is not a key. -/
def getPrs (g : RedeDisciplinas) (d : String) : List String :=
  match g.find? (fun e => e.1 == d) with
  | some e => e.2
  | none => []

/-- `adicionar_disciplina`: insert a course with an empty prerequisite set;
no-op if it already exists (lines 21-24). -/
def adicionar_disciplina (g : RedeDisciplinas) (d : String) : RedeDisciplinas :=
  if d ∈ chaves g then g else g ++ [(d, [])]

/-- `remover_disciplina`: no-op if unknown, otherwise delete the key and
discard the course from every remaining prerequisite set (lines 26-35). -/
def remover_disciplina (g : RedeDisciplinas) (d : String) : RedeDisciplinas :=
  if d ∉ chaves g then g
  else (g.filter (fun e => e.1 ≠ d)).map (fun e => (e.1, e.2.filter (fun p => p ≠ d)))

/-- Python `set.add`: append the element when absent (set semantics). -/
def addElem (l : List String) (x : String) : List String :=
  if x ∈ l then l else l ++ [x]

/-- Update the value stored under key `d` (`self._pre_reqs[d]` mutation). -/
def atualiza (g : RedeDisciplinas) (d : String) (f : List String → List String) :
    RedeDisciplinas :=
  g.map (fun e => if e.1 = d then (e.1, f e.2) else e)

/-- `adicionar_pre_requisito`: auto-create both endpoints, then add
`pre` to `disciplina`'s prerequisite set (lines 38-45). -/
def adicionar_pre_requisito (g : RedeDisciplinas) (pre disciplina : String) :
    RedeDisciplinas :=
  atualiza (adicionar_disciplina (adicionar_disciplina g pre) disciplina) disciplina
    (fun l => addElem l pre)

/-- `remover_pre_requisito`: discard the edge if `disciplina` is known
(lines 47-50). -/
def remover_pre_requisito (g : RedeDisciplinas) (pre disciplina : String) :
    RedeDisciplinas :=
  if disciplina ∈ chaves g then
    atualiza g disciplina (fun l => l.filter (fun p => p ≠ pre))
  else g

/-- `disciplinas`: list all courses (lines 53-55). -/
def disciplinas (g : RedeDisciplinas) : List String := chaves g

/-- `prerequisitos_diretos`: raise for an unknown course, else return the
direct prerequisite set (lines 57-61). -/
def prerequisitos_diretos (g : RedeDisciplinas) (d : String) :
    Except Err (List String) :=
  if d ∈ chaves g then .ok (getPrs g d) else .error .unknownCourse

/-- All node names mentioned anywhere in the structure (keys and prerequisite
entries); used only for termination measures. -/
def nosDe (g : RedeDisciplinas) : List String :=
  (g.map Prod.fst ++ (g.map (fun e => e.2)).flatten).dedup

/-- Total number of stored prerequisite entries; used only for termination
measures. -/
def totEdges (g : RedeDisciplinas) : Nat := ((g.map (fun e => e.2)).flatten).length

lemma chaves_subset_nosDe {g : RedeDisciplinas} {x : String} (h : x ∈ chaves g) :
    x ∈ nosDe g := by
  unfold nosDe chaves at *
  exact List.mem_dedup.mpr (List.mem_append.mpr (Or.inl h))

lemma mem_chaves_of_find? {g : RedeDisciplinas} {d : String}
    {e : String × List String} (h : g.find? (fun e => e.1 == d) = some e) :
    d ∈ chaves g := by
  have h1 := List.find?_some h
  have h2 := List.mem_of_find?_eq_some h
  have h3 : e.1 = d := by simpa using h1
  subst h3
  exact List.mem_map.mpr ⟨e, h2, rfl⟩

lemma getPrs_eq_nil_of_not_mem {g : RedeDisciplinas} {d : String}
    (h : d ∉ chaves g) : getPrs g d = [] := by
  unfold getPrs
  cases hf : g.find? (fun e => e.1 == d) with
  | none => rfl
  | some e => exact absurd (mem_chaves_of_find? hf) h

lemma getPrs_subset_nosDe {g : RedeDisciplinas} {c p : String}
    (h : p ∈ getPrs g c) : p ∈ nosDe g := by
  unfold getPrs at h
  cases hf : g.find? (fun e => e.1 == c) with
  | none => rw [hf] at h; cases h
  | some e =>
    rw [hf] at h
    have he := List.mem_of_find?_eq_some hf
    unfold nosDe
    refine List.mem_dedup.mpr (List.mem_append.mpr (Or.inr ?_))
    exact List.mem_flatten.mpr ⟨e.2, List.mem_map.mpr ⟨e, he, rfl⟩, h⟩

lemma getPrs_length_le_tot (g : RedeDisciplinas) (d : String) :
    (getPrs g d).length ≤ totEdges g := by
  unfold getPrs totEdges
  cases hf : g.find? (fun e => e.1 == d) with
  | none => simp
  | some e =>
    have he := List.mem_of_find?_eq_some hf
    have h1 : e.2 ∈ g.map (fun e => e.2) := List.mem_map.mpr ⟨e, he, rfl⟩
    rw [List.length_flatten]
    have h2 : e.2.length ∈ (g.map (fun e => e.2)).map List.length :=
      List.mem_map.mpr ⟨e.2, h1, rfl⟩
    simpa using List.single_le_sum (by intro x _; omega) _ h2

/-- Measure for the two DFS loops of `ag.py`. -/
def dfsMeasure (g : RedeDisciplinas) (pilha vistos : List String) : Nat :=
  ((nosDe g).toFinset \ vistos.toFinset).card * (totEdges g + 2) + pilha.length

lemma dfsMeasure_skip (g : RedeDisciplinas) (cur : String) (rest vistos : List String) :
    dfsMeasure g rest vistos < dfsMeasure g (cur :: rest) vistos := by
  unfold dfsMeasure
  simp only [List.length_cons]
  omega

lemma dfsMeasure_push (g : RedeDisciplinas) (cur : String) (rest vistos : List String)
    (hnv : cur ∉ vistos) :
    dfsMeasure g (getPrs g cur ++ rest) (cur :: vistos) <
      dfsMeasure g (cur :: rest) vistos := by
  unfold dfsMeasure
  by_cases hc : cur ∈ nosDe g
  · have hmem : cur ∈ (nosDe g).toFinset \ vistos.toFinset := by
      simp [List.mem_toFinset, hc, hnv]
    have hss : (nosDe g).toFinset \ (cur :: vistos).toFinset ⊂
        (nosDe g).toFinset \ vistos.toFinset := by
      constructor
      · refine Finset.sdiff_subset_sdiff (le_refl _) ?_
        intro x hx
        simp only [List.toFinset_cons]
        exact Finset.mem_insert_of_mem hx
      · intro hsub
        have := hsub hmem
        simp [List.toFinset_cons] at this
    have hlt := Finset.card_lt_card hss
    have hlen := getPrs_length_le_tot g cur
    set c2 := ((nosDe g).toFinset \ (cur :: vistos).toFinset).card with hc2
    set c1 := ((nosDe g).toFinset \ vistos.toFinset).card with hc1
    have hmul : c2 * (totEdges g + 2) + (totEdges g + 2) ≤ c1 * (totEdges g + 2) := by
      have h := Nat.mul_le_mul_right (k := totEdges g + 2) (show c2 + 1 ≤ c1 by omega)
      rw [add_mul, one_mul] at h
      exact h
    simp only [List.length_append, List.length_cons]
    omega
  · have hnil : getPrs g cur = [] :=
      getPrs_eq_nil_of_not_mem (fun h => hc (chaves_subset_nosDe h))
    have hle : ((nosDe g).toFinset \ (cur :: vistos).toFinset).card ≤
        ((nosDe g).toFinset \ vistos.toFinset).card := by
      refine Finset.card_le_card (Finset.sdiff_subset_sdiff (le_refl _) ?_)
      intro x hx
      simp only [List.toFinset_cons]
      exact Finset.mem_insert_of_mem hx
    set c2 := ((nosDe g).toFinset \ (cur :: vistos).toFinset).card
    set c1 := ((nosDe g).toFinset \ vistos.toFinset).card
    rw [hnil]
    simp only [List.nil_append, List.length_cons]
    have hmul : c2 * (totEdges g + 2) ≤ c1 * (totEdges g + 2) :=
      Nat.mul_le_mul_right _ hle
    omega

/-- The `while pilha` loop of `todos_prerequisitos` (lines 69-74): pop a
course, skip it if already seen, otherwise record it and push its direct
prerequisites. -/
def todosLoop (g : RedeDisciplinas) (pilha vistos : List String) : List String :=
  match pilha with
  | [] => vistos
  | cur :: rest =>
    if cur ∈ vistos then todosLoop g rest vistos
    else todosLoop g (getPrs g cur ++ rest) (cur :: vistos)
termination_by dfsMeasure g pilha vistos
decreasing_by
  · exact dfsMeasure_skip g cur rest vistos
  · exact dfsMeasure_push g cur rest vistos (by assumption)

/-- `todos_prerequisitos`: raise for an unknown course, else return the set of
all (transitive) prerequisites (lines 63-75). -/
def todos_prerequisitos (g : RedeDisciplinas) (d : String) :
    Except Err (List String) :=
  if d ∈ chaves g then .ok (todosLoop g (getPrs g d) []) else .error .unknownCourse

/-- The DFS of `existe_dependencia` (lines 85-95): search for `a` among the
ancestors, with a visited-set guard; the `cur == a` test precedes the guard. -/
def buscaLoop (g : RedeDisciplinas) (a : String) (pilha visitados : List String) :
    Bool :=
  match pilha with
  | [] => false
  | cur :: rest =>
    if cur = a then true
    else if cur ∈ visitados then buscaLoop g a rest visitados
    else buscaLoop g a (getPrs g cur ++ rest) (cur :: visitados)
termination_by dfsMeasure g pilha visitados
decreasing_by
  · exact dfsMeasure_skip g cur rest visitados
  · exact dfsMeasure_push g cur rest visitados (by assumption)

/-- `existe_dependencia`: `False` when either course is unknown, else a DFS
from `b`'s direct prerequisites looking for `a` (lines 77-95). -/
def existe_dependencia (g : RedeDisciplinas) (a b : String) : Bool :=
  if b ∉ chaves g ∨ a ∉ chaves g then false
  else buscaLoop g a (getPrs g b) []

/-! ## Kahn's algorithm (lines 106-132, repeated verbatim at lines 149-167)

`ordenacao_topologica` and `plano_de_estudo_para` contain the same Kahn loop,
duplicated in the source; it is defined once here and instantiated twice.
The `in_degree` dict is modelled as a total function (only keys of the graph
are ever consulted), and the deque as a list popped at the head and pushed at
the tail. -/

/-- One step of `for m in reverse_adj.get(n, ()): in_degree[m] -= 1; if
in_degree[m] == 0: fila.append(m)`. -/
def decStep (dq : (String → Int) × List String) (m : String) :
    (String → Int) × List String :=
  let dm := dq.1 m - 1
  (fun x => if x = m then dm else dq.1 x, if dm = 0 then dq.2 ++ [m] else dq.2)

/-- Process all successors of a dequeued node. -/
def processa (ms : List String) (deg : String → Int) (q : List String) :
    (String → Int) × List String :=
  ms.foldl decStep (deg, q)

/-- `reverse_adj[p]`: the courses that list `p` as a direct prerequisite,
in key order (lines 117-120). -/
def revAdj (g : RedeDisciplinas) (p : String) : List String :=
  (g.filter (fun e => p ∈ e.2)).map Prod.fst

lemma revAdj_subset_chaves {g : RedeDisciplinas} {p m : String}
    (h : m ∈ revAdj g p) : m ∈ chaves g := by
  unfold revAdj at h
  obtain ⟨e, he, rfl⟩ := List.mem_map.mp h
  exact List.mem_map.mpr ⟨e, List.mem_of_mem_filter he, rfl⟩

/-- Sum of the (truncated) in-degrees over all keys; termination measure. -/
def ksum (g : RedeDisciplinas) (deg : String → Int) : Nat :=
  ((chaves g).map (fun k => (deg k).toNat)).sum

lemma sum_map_le_sum_map {l : List String} {f h : String → Nat}
    (hp : ∀ k, f k ≤ h k) : (l.map f).sum ≤ (l.map h).sum := by
  induction l with
  | nil => simp
  | cons c t ih => simp only [List.map_cons, List.sum_cons]; have := hp c; omega

lemma sum_map_lt_at_mem {l : List String} {f h : String → Nat}
    (hp : ∀ k, f k ≤ h k) {m : String} (hm : m ∈ l) (hstrict : f m + 1 ≤ h m) :
    (l.map f).sum + 1 ≤ (l.map h).sum := by
  induction l with
  | nil => cases hm
  | cons c t ih =>
    simp only [List.map_cons, List.sum_cons]
    rcases List.mem_cons.mp hm with rfl | hmt
    · have := sum_map_le_sum_map (l := t) hp; omega
    · have := ih hmt; have := hp c; omega

lemma ksum_upd_le (g : RedeDisciplinas) (deg : String → Int) (m : String) :
    ksum g (fun x => if x = m then deg m - 1 else deg x) ≤ ksum g deg := by
  unfold ksum
  apply sum_map_le_sum_map
  intro k
  dsimp only
  by_cases hk : k = m
  · subst hk; simp only [if_pos rfl]; omega
  · simp only [if_neg hk]; omega

lemma ksum_upd_lt (g : RedeDisciplinas) (deg : String → Int) (m : String)
    (hm : m ∈ chaves g) (h1 : deg m = 1) :
    ksum g (fun x => if x = m then deg m - 1 else deg x) + 1 ≤ ksum g deg := by
  unfold ksum
  refine sum_map_lt_at_mem ?_ hm ?_
  · intro k
    dsimp only
    by_cases hk : k = m
    · subst hk; simp only [if_pos rfl]; omega
    · simp only [if_neg hk]; omega
  · show (if m = m then deg m - 1 else deg m).toNat + 1 ≤ (deg m).toNat
    rw [if_pos rfl]
    omega

lemma decStep_fst (deg : String → Int) (q : List String) (m : String) :
    (decStep (deg, q) m).1 = fun x => if x = m then deg m - 1 else deg x := rfl

lemma decStep_snd (deg : String → Int) (q : List String) (m : String) :
    (decStep (deg, q) m).2 = if deg m - 1 = 0 then q ++ [m] else q := rfl

lemma decStep_phi (g : RedeDisciplinas) (deg : String → Int) (q : List String)
    (m : String) (hm : m ∈ chaves g) :
    ksum g (decStep (deg, q) m).1 + (decStep (deg, q) m).2.length ≤
      ksum g deg + q.length := by
  rw [decStep_fst, decStep_snd]
  by_cases h0 : deg m - 1 = 0
  · rw [if_pos h0]
    have h1 := ksum_upd_lt g deg m hm (by omega)
    simp only [List.length_append, List.length_cons, List.length_nil]
    omega
  · rw [if_neg h0]
    have h1 := ksum_upd_le g deg m
    omega

lemma processa_phi (g : RedeDisciplinas) (ms : List String)
    (hms : ∀ m ∈ ms, m ∈ chaves g) :
    ∀ deg q, ksum g (processa ms deg q).1 + (processa ms deg q).2.length ≤
      ksum g deg + q.length := by
  induction ms with
  | nil => intro deg q; simp [processa]
  | cons m t ih =>
    intro deg q
    rcases hdq : decStep (deg, q) m with ⟨d1, q1⟩
    have h1 := decStep_phi g deg q m (hms m (by simp))
    rw [hdq] at h1
    dsimp only at h1
    have h2 := ih (fun x hx => hms x (by simp [hx])) d1 q1
    unfold processa at h2 ⊢
    simp only [List.foldl_cons, hdq]
    omega

/-- The `while fila` loop of Kahn's algorithm (lines 122-128): dequeue `n`,
append it to the order, decrement the in-degree of each of its successors,
enqueueing any that reach zero. -/
def kahnLoop (g : RedeDisciplinas) (fila : List String) (deg : String → Int)
    (ordem : List String) : List String :=
  match fila with
  | [] => ordem
  | cur :: rest =>
    let dq := processa (revAdj g cur) deg rest
    kahnLoop g dq.2 dq.1 (ordem ++ [cur])
termination_by ksum g deg + fila.length
decreasing_by
  have h := processa_phi g (revAdj g cur) (fun m hm => revAdj_subset_chaves hm) deg rest
  simp only [List.length_cons]
  omega

/-- `in_degree`: each course's number of direct prerequisites (line 112). -/
def grau_inicial (g : RedeDisciplinas) : String → Int :=
  fun n => ((getPrs g n).length : Int)

/-- The initial queue: all courses of in-degree zero, in key order (line 113). -/
def fila_inicial (g : RedeDisciplinas) : List String :=
  (g.filter (fun e => e.2.length = 0)).map Prod.fst

/-- The full Kahn run on a graph. -/
def kahn (g : RedeDisciplinas) : List String :=
  kahnLoop g (fila_inicial g) (grau_inicial g) []

/-- `ordenacao_topologica` (lines 106-132): raise `CycleError` when the
produced order misses some course, else return it. -/
def ordenacao_topologica (g : RedeDisciplinas) : Except Err (List String) :=
  let ordem := kahn g
  if ordem.length = g.length then .ok ordem else .error .cycleDetected

/-- `tem_ciclo` (lines 98-104): attempt the full sort, converting `CycleError`
into `true`.  (`ordenacao_topologica` never raises `KeyError`; that arm is
unreachable.) -/
def tem_ciclo (g : RedeDisciplinas) : Bool :=
  match ordenacao_topologica g with
  | .ok _ => false
  | .error .cycleDetected => true
  | .error .unknownCourse => false

/-- The `necessario` set of `plano_de_estudo_para` (lines 142-143):
all prerequisites of the target plus the target itself. -/
def necessario (g : RedeDisciplinas) (alvo : String) : List String :=
  addElem (todosLoop g (getPrs g alvo) []) alvo

/-- The induced sub-graph `sub_prs` (lines 145-147): the required courses,
each with its prerequisite set filtered to required courses. -/
def subRede (g : RedeDisciplinas) (alvo : String) : RedeDisciplinas :=
  (necessario g alvo).map
    (fun n => (n, (getPrs g n).filter (fun p => p ∈ necessario g alvo)))

/-- `plano_de_estudo_para` (lines 135-168): `KeyError` for an unknown target,
else Kahn's algorithm on the induced sub-graph, raising `CycleError` when the
sub-graph order is incomplete. -/
def plano_de_estudo_para (g : RedeDisciplinas) (alvo : String) :
    Except Err (List String) :=
  if alvo ∈ chaves g then
    let sub := subRede g alvo
    let ordem := kahn sub
    if ordem.length = sub.length then .ok ordem else .error .cycleDetected
  else .error .unknownCourse

/-! ## Level progression (lines 170-194)

The `while disponiveis` loop of `progressao_por_niveis_para`: each round the
current cohort is appended as a level, every required course that lists a
cohort member as a direct prerequisite has its in-degree decremented, and the
courses reaching zero (minus the already processed ones) form the next
cohort. -/

/-- Body of `for m in necessario: if n in sub_prs.get(m, set()): ...`
(lines 188-192). -/
def nivDec (sub : RedeDisciplinas) (n : String)
    (dp : (String → Int) × List String) (m : String) :
    (String → Int) × List String :=
  if n ∈ getPrs sub m then
    let dm := dp.1 m - 1
    (fun x => if x = m then dm else dp.1 x, if dm = 0 then addElem dp.2 m else dp.2)
  else dp

/-- Processing of one cohort member `n` over all required courses. -/
def nivStep (sub : RedeDisciplinas) (nec : List String)
    (dp : (String → Int) × List String) (n : String) :
    (String → Int) × List String :=
  nec.foldl (nivDec sub n) dp

lemma mem_addElem {l : List String} {x y : String} :
    x ∈ addElem l y ↔ x ∈ l ∨ x = y := by
  unfold addElem
  by_cases h : y ∈ l
  · simp only [if_pos h]
    constructor
    · exact Or.inl
    · rintro (hx | rfl) <;> [exact hx; exact h]
  · simp [if_neg h]

lemma mem_foldl_addElem {l : List String} {acc : List String} {x : String} :
    x ∈ l.foldl addElem acc ↔ x ∈ acc ∨ x ∈ l := by
  induction l generalizing acc with
  | nil => simp
  | cons y t ih =>
    simp only [List.foldl_cons, ih, mem_addElem, List.mem_cons]
    tauto

lemma nivDec_snd_sub {sub : RedeDisciplinas} {n : String}
    {dp : (String → Int) × List String} {m x : String}
    (h : x ∈ (nivDec sub n dp m).2) : x ∈ dp.2 ∨ x = m := by
  unfold nivDec at h
  by_cases hc : n ∈ getPrs sub m
  · rw [if_pos hc] at h
    dsimp only at h
    by_cases h0 : dp.1 m - 1 = 0
    · rw [if_pos h0] at h
      exact mem_addElem.mp h
    · rw [if_neg h0] at h
      exact Or.inl h
  · rw [if_neg hc] at h
    exact Or.inl h

lemma nivStep_snd_sub {sub : RedeDisciplinas} {nec : List String} {n x : String} :
    ∀ dp : (String → Int) × List String,
      x ∈ (nivStep sub nec dp n).2 → x ∈ dp.2 ∨ x ∈ nec := by
  unfold nivStep
  induction nec with
  | nil => intro dp h; exact Or.inl h
  | cons m t ih =>
    intro dp h
    simp only [List.foldl_cons] at h
    rcases ih (nivDec sub n dp m) h with h1 | h1
    · rcases nivDec_snd_sub h1 with h2 | h2
      · exact Or.inl h2
      · exact Or.inr (by simp [h2])
    · exact Or.inr (by simp [h1])

lemma foldl_nivStep_snd_sub {sub : RedeDisciplinas} {nec : List String} {x : String} :
    ∀ (disp : List String) (dp : (String → Int) × List String),
      x ∈ (disp.foldl (nivStep sub nec) dp).2 → x ∈ dp.2 ∨ x ∈ nec := by
  intro disp
  induction disp with
  | nil => intro dp h; exact Or.inl h
  | cons n t ih =>
    intro dp h
    simp only [List.foldl_cons] at h
    rcases ih (nivStep sub nec dp n) h with h1 | h1
    · exact nivStep_snd_sub dp h1
    · exact Or.inr h1

/-- Measure for the level loop: required-or-cohort courses not yet processed,
plus a flag for a (never reached from the initial state) overlap between the
cohort and the processed set. -/
def nivMeasure (nec disp proc : List String) : Nat :=
  ((nec.toFinset ∪ disp.toFinset) \ proc.toFinset).card * 2 +
    (if ∃ x ∈ disp, x ∈ proc then 1 else 0)

lemma nivMeasure_lt (sub : RedeDisciplinas) (nec disp proc : List String)
    (deg : String → Int) (hne : disp ≠ []) :
    nivMeasure nec
      ((disp.foldl (nivStep sub nec) (deg, [])).2.filter
        (fun x => x ∉ disp.foldl addElem proc))
      (disp.foldl addElem proc) < nivMeasure nec disp proc := by
  set dp := disp.foldl (nivStep sub nec) (deg, []) with hdp
  set proc2 := disp.foldl addElem proc with hproc2
  set disp2 := dp.2.filter (fun x => x ∉ proc2) with hdisp2
  have hproc2mem : ∀ x, x ∈ proc2 ↔ x ∈ proc ∨ x ∈ disp := fun x => mem_foldl_addElem
  have hdisp2nec : ∀ x ∈ disp2, x ∈ nec := by
    intro x hx
    have h1 : x ∈ dp.2 := List.mem_of_mem_filter hx
    rcases foldl_nivStep_snd_sub disp (deg, []) h1 with h2 | h2
    · cases h2
    · exact h2
  have hdisp2proc2 : ∀ x ∈ disp2, x ∉ proc2 := by
    intro x hx
    have := List.of_mem_filter hx
    simpa using this
  have hsub : (nec.toFinset ∪ disp2.toFinset) \ proc2.toFinset ⊆
      (nec.toFinset ∪ disp.toFinset) \ proc.toFinset := by
    intro x hx
    rw [Finset.mem_sdiff] at hx ⊢
    obtain ⟨hx1, hx2⟩ := hx
    constructor
    · rcases Finset.mem_union.mp hx1 with h | h
      · exact Finset.mem_union_left _ h
      · exact Finset.mem_union_left _
          (List.mem_toFinset.mpr (hdisp2nec x (List.mem_toFinset.mp h)))
    · intro hxp
      exact hx2 (List.mem_toFinset.mpr
        ((hproc2mem x).mpr (Or.inl (List.mem_toFinset.mp hxp))))
  have hflag2 : ¬ ∃ x ∈ disp2, x ∈ proc2 := by
    rintro ⟨x, hx1, hx2⟩
    exact hdisp2proc2 x hx1 hx2
  unfold nivMeasure
  rw [if_neg hflag2]
  by_cases hflag : ∃ x ∈ disp, x ∈ proc
  · rw [if_pos hflag]
    have := Finset.card_le_card hsub
    omega
  · rw [if_neg hflag]
    obtain ⟨x0, hx0⟩ : ∃ x, x ∈ disp := by
      cases disp with
      | nil => exact absurd rfl hne
      | cons a t => exact ⟨a, by simp⟩
    have hx0p : x0 ∉ proc := fun hc => hflag ⟨x0, hx0, hc⟩
    have hx0in : x0 ∈ (nec.toFinset ∪ disp.toFinset) \ proc.toFinset := by
      rw [Finset.mem_sdiff]
      exact ⟨Finset.mem_union_right _ (List.mem_toFinset.mpr hx0),
        fun hc => hx0p (List.mem_toFinset.mp hc)⟩
    have hx0out : x0 ∉ (nec.toFinset ∪ disp2.toFinset) \ proc2.toFinset := by
      rw [Finset.mem_sdiff]
      rintro ⟨-, hc⟩
      exact hc (List.mem_toFinset.mpr ((hproc2mem x0).mpr (Or.inr hx0)))
    have hss : (nec.toFinset ∪ disp2.toFinset) \ proc2.toFinset ⊂
        (nec.toFinset ∪ disp.toFinset) \ proc.toFinset :=
      ⟨hsub, fun hc => hx0out (hc hx0in)⟩
    have := Finset.card_lt_card hss
    omega

/-- The `while disponiveis` loop (lines 183-193). -/
def nivLoop (sub : RedeDisciplinas) (nec disponiveis processados : List String)
    (deg : String → Int) (niveis : List (List String)) : List (List String) :=
  if hne : disponiveis = [] then niveis
  else
    let dp := disponiveis.foldl (nivStep sub nec) (deg, [])
    let processados2 := disponiveis.foldl addElem processados
    let disponiveis2 := dp.2.filter (fun x => x ∉ processados2)
    nivLoop sub nec disponiveis2 processados2 dp.1 (niveis ++ [disponiveis])
termination_by nivMeasure nec disponiveis processados
decreasing_by
  exact nivMeasure_lt sub nec disponiveis processados deg hne

/-- `progressao_por_niveis_para` (lines 170-194): run `plano_de_estudo_para`
(propagating its exceptions), rebuild the induced sub-graph over its result,
and peel off levels of in-degree-zero courses. -/
def progressao_por_niveis_para (g : RedeDisciplinas) (alvo : String) :
    Except Err (List (List String)) :=
  match plano_de_estudo_para g alvo with
  | .error e => .error e
  | .ok ordem =>
    let sub : RedeDisciplinas :=
      ordem.map (fun n => (n, (getPrs g n).filter (fun p => p ∈ ordem)))
    .ok (nivLoop sub ordem (fila_inicial sub) [] (grau_inicial sub) [])

/-! ## Mutation sequences and state-passing forms -/

/-- The four mutation operations of the API. -/
inductive Op where
  | addCourse (d : String)
  | removeCourse (d : String)
  | addPrereq (p d : String)
  | removePrereq (p d : String)

/-- Apply one mutation. -/
def applyOp (g : RedeDisciplinas) : Op → RedeDisciplinas
  | .addCourse d => adicionar_disciplina g d
  | .removeCourse d => remover_disciplina g d
  | .addPrereq p d => adicionar_pre_requisito g p d
  | .removePrereq p d => remover_pre_requisito g p d

/-- Apply a sequence of mutations. -/
def applyOps (g : RedeDisciplinas) (ops : List Op) : RedeDisciplinas :=
  ops.foldl applyOp g

/-- The freshly constructed empty graph (`RedeDisciplinas()`). -/
def vazio : RedeDisciplinas := []

/-! State-passing forms of the query methods.  The Python query methods read
`self._pre_reqs` but never assign to it; their faithful state-passing
translation therefore returns the graph component unchanged. -/

/-- `disciplinas` as a state transformer. -/
def disciplinasST (g : RedeDisciplinas) : RedeDisciplinas × List String :=
  (g, disciplinas g)

/-- `prerequisitos_diretos` as a state transformer. -/
def prerequisitos_diretosST (g : RedeDisciplinas) (d : String) :
    RedeDisciplinas × Except Err (List String) :=
  (g, prerequisitos_diretos g d)

/-- `todos_prerequisitos` as a state transformer. -/
def todos_prerequisitosST (g : RedeDisciplinas) (d : String) :
    RedeDisciplinas × Except Err (List String) :=
  (g, todos_prerequisitos g d)

/-- `existe_dependencia` as a state transformer. -/
def existe_dependenciaST (g : RedeDisciplinas) (a b : String) :
    RedeDisciplinas × Bool :=
  (g, existe_dependencia g a b)

/-- `tem_ciclo` as a state transformer. -/
def tem_cicloST (g : RedeDisciplinas) : RedeDisciplinas × Bool :=
  (g, tem_ciclo g)

/-- `ordenacao_topologica` as a state transformer. -/
def ordenacao_topologicaST (g : RedeDisciplinas) :
    RedeDisciplinas × Except Err (List String) :=
  (g, ordenacao_topologica g)

/-- `plano_de_estudo_para` as a state transformer. -/
def plano_de_estudo_paraST (g : RedeDisciplinas) (alvo : String) :
    RedeDisciplinas × Except Err (List String) :=
  (g, plano_de_estudo_para g alvo)

/-- `progressao_por_niveis_para` as a state transformer. -/
def progressao_por_niveis_paraST (g : RedeDisciplinas) (alvo : String) :
    RedeDisciplinas × Except Err (List (List String)) :=
  (g, progressao_por_niveis_para g alvo)

/-! ## Specification predicates -/

/-- Well-formedness delivered for free by the Python `dict`/`set` types:
keys are distinct and each prerequisite set is duplicate-free.  Every
reachable state of `RedeDisciplinas` satisfies this. -/
def RedeWF (g : RedeDisciplinas) : Prop :=
  (chaves g).Nodup ∧ ∀ e ∈ g, e.2.Nodup

/-- No dangling edge: every course mentioned as a prerequisite is a key. -/
def Fechada (g : RedeDisciplinas) : Prop :=
  ∀ e ∈ g, ∀ p ∈ e.2, p ∈ chaves g

/-- The edge relation: `a` is a direct prerequisite of `b` (edge `a → b`). -/
def Aresta (g : RedeDisciplinas) (a b : String) : Prop := a ∈ getPrs g b

/-- The graph contains a directed cycle. -/
def TemCicloProp (g : RedeDisciplinas) : Prop :=
  ∃ x, Relation.TransGen (Aresta g) x x

/-- `a` occurs strictly before `b` in the list `l`. -/
def antes (l : List String) (a b : String) : Prop :=
  a ∈ l ∧ b ∈ l ∧ l.indexOf a < l.indexOf b

/-! ## Basic facts about the representation -/

lemma mem_chaves_iff {g : RedeDisciplinas} {d : String} :
    d ∈ chaves g ↔ ∃ l, (d, l) ∈ g := by
  unfold chaves
  constructor
  · intro h
    obtain ⟨e, he, rfl⟩ := List.mem_map.mp h
    exact ⟨e.2, he⟩
  · rintro ⟨l, hl⟩
    exact List.mem_map.mpr ⟨(d, l), hl, rfl⟩

lemma getPrs_eq_of_mem {g : RedeDisciplinas} (hnd : (chaves g).Nodup)
    {e : String × List String} (he : e ∈ g) : getPrs g e.1 = e.2 := by
  induction g with
  | nil => cases he
  | cons a t ih =>
    rcases List.mem_cons.mp he with rfl | het
    · unfold getPrs
      simp
    · have hnd' : (chaves t).Nodup := (List.nodup_cons.mp hnd).2
      have hne : a.1 ≠ e.1 := by
        intro hc
        exact (List.nodup_cons.mp hnd).1
          (hc ▸ List.mem_map.mpr ⟨e, het, rfl⟩)
      have hbeq : (a.1 == e.1) = false := by simpa using hne
      unfold getPrs
      simp only [List.find?_cons, hbeq]
      exact ih hnd' het

lemma aresta_mem_chaves {g : RedeDisciplinas} {a b : String}
    (h : Aresta g a b) : b ∈ chaves g := by
  unfold Aresta getPrs at h
  cases hf : g.find? (fun e => e.1 == b) with
  | none => rw [hf] at h; cases h
  | some e => exact mem_chaves_of_find? hf

lemma fechada_getPrs {g : RedeDisciplinas} (hfc : Fechada g) {c p : String}
    (h : p ∈ getPrs g c) : p ∈ chaves g := by
  unfold getPrs at h
  cases hf : g.find? (fun e => e.1 == c) with
  | none => rw [hf] at h; cases h
  | some e =>
    rw [hf] at h
    exact hfc e (List.mem_of_find?_eq_some hf) p h

lemma getPrs_nodup {g : RedeDisciplinas} (hwf : RedeWF g) (d : String) :
    (getPrs g d).Nodup := by
  unfold getPrs
  cases hf : g.find? (fun e => e.1 == d) with
  | none => exact List.nodup_nil
  | some e => exact hwf.2 e (List.mem_of_find?_eq_some hf)

lemma chaves_length (g : RedeDisciplinas) : (chaves g).length = g.length :=
  List.length_map g Prod.fst

/-! ## Facts about `antes` (strict precedence in a list) -/

lemma antes_trans {l : List String} {a b c : String}
    (h1 : antes l a b) (h2 : antes l b c) : antes l a c :=
  ⟨h1.1, h2.2.1, lt_trans h1.2.2 h2.2.2⟩

lemma antes_irrefl {l : List String} {a : String} : ¬ antes l a a :=
  fun h => lt_irrefl _ h.2.2

lemma antes_append {l t : List String} {a b : String} (h : antes l a b) :
    antes (l ++ t) a b := by
  obtain ⟨h1, h2, h3⟩ := h
  refine ⟨List.mem_append_left _ h1, List.mem_append_left _ h2, ?_⟩
  rw [List.indexOf_append_of_mem h1, List.indexOf_append_of_mem h2]
  exact h3

lemma antes_snoc_new {l : List String} {a n : String} (ha : a ∈ l) (hn : n ∉ l) :
    antes (l ++ [n]) a n := by
  refine ⟨List.mem_append_left _ ha, List.mem_append_right _ (by simp), ?_⟩
  rw [List.indexOf_append_of_mem ha, List.indexOf_append_of_not_mem hn]
  have := List.indexOf_lt_length.mpr ha
  simp only [List.indexOf_cons_self]
  omega

/-! ## A finite set in which everyone has an in-set predecessor yields a cycle -/

lemma chain_of_iterate {r : String → String → Prop} {S : Finset String}
    (f : {x // x ∈ S} → {x // x ∈ S}) (hf : ∀ x, r (f x).1 x.1)
    (x0 : {x // x ∈ S}) :
    ∀ n m, m < n → Relation.TransGen r (f^[n] x0).1 (f^[m] x0).1 := by
  intro n
  induction n with
  | zero => intro m hm; omega
  | succ n ih =>
    intro m hm
    have hstep : Relation.TransGen r (f^[n + 1] x0).1 (f^[n] x0).1 := by
      rw [Function.iterate_succ_apply']
      exact Relation.TransGen.single (hf (f^[n] x0))
    rcases Nat.lt_succ_iff_lt_or_eq.mp hm with h | rfl
    · exact Relation.TransGen.trans hstep (ih m h)
    · exact hstep

lemma exists_cycle_of_stuck {r : String → String → Prop} (S : Finset String)
    (hne : S.Nonempty) (hp : ∀ k ∈ S, ∃ p ∈ S, r p k) :
    ∃ x, Relation.TransGen r x x := by
  classical
  obtain ⟨k0, hk0⟩ := hne
  let f : {x // x ∈ S} → {x // x ∈ S} := fun x =>
    ⟨(hp x.1 x.2).choose, (hp x.1 x.2).choose_spec.1⟩
  have hf : ∀ x : {x // x ∈ S}, r (f x).1 x.1 := fun x => (hp x.1 x.2).choose_spec.2
  have hlt : Fintype.card {x // x ∈ S} < Fintype.card (Fin (S.card + 1)) := by
    rw [Fintype.card_coe, Fintype.card_fin]
    omega
  obtain ⟨i, j, hij, heq⟩ :=
    Fintype.exists_ne_map_eq_of_card_lt (fun i : Fin (S.card + 1) => f^[i.1] ⟨k0, hk0⟩) hlt
  have hij' : i.1 ≠ j.1 := fun h => hij (Fin.ext h)
  rcases lt_or_gt_of_ne hij' with h | h
  · have h2 := chain_of_iterate f hf ⟨k0, hk0⟩ j.1 i.1 h
    rw [heq] at h2
    exact ⟨_, h2⟩
  · have h2 := chain_of_iterate f hf ⟨k0, hk0⟩ i.1 j.1 h
    rw [← heq] at h2
    exact ⟨_, h2⟩

/-! ## Kahn's algorithm: the loop invariant -/

lemma revAdj_nodup {g : RedeDisciplinas} (hwf : RedeWF g) (p : String) :
    (revAdj g p).Nodup := by
  unfold revAdj
  exact List.Nodup.sublist (List.Sublist.map Prod.fst (List.filter_sublist g)) hwf.1

lemma mem_revAdj_iff {g : RedeDisciplinas} (hwf : RedeWF g) {p m : String} :
    m ∈ revAdj g p ↔ m ∈ chaves g ∧ p ∈ getPrs g m := by
  unfold revAdj
  constructor
  · intro h
    obtain ⟨e, he, rfl⟩ := List.mem_map.mp h
    have h1 := List.mem_filter.mp he
    have h2 := getPrs_eq_of_mem hwf.1 h1.1
    refine ⟨List.mem_map.mpr ⟨e, h1.1, rfl⟩, ?_⟩
    rw [h2]
    simpa using h1.2
  · rintro ⟨hm, hp⟩
    obtain ⟨l, hl⟩ := mem_chaves_iff.mp hm
    have he : getPrs g m = l := getPrs_eq_of_mem hwf.1 (e := (m, l)) hl
    refine List.mem_map.mpr ⟨(m, l), List.mem_filter.mpr ⟨hl, ?_⟩, rfl⟩
    rw [he] at hp
    simpa using hp

lemma processa_spec (ms : List String) (hnd : ms.Nodup) :
    ∀ (deg : String → Int) (q : List String),
      processa ms deg q =
        (fun x => if x ∈ ms then deg x - 1 else deg x,
         q ++ ms.filter (fun m => deg m = 1)) := by
  induction ms with
  | nil =>
    intro deg q
    unfold processa
    simp only [List.foldl_nil, List.filter_nil, List.append_nil]
    refine Prod.ext ?_ rfl
    funext x
    simp
  | cons m t ih =>
    intro deg q
    obtain ⟨hm, hndt⟩ := List.nodup_cons.mp hnd
    unfold processa at ih ⊢
    simp only [List.foldl_cons]
    rcases hd : decStep (deg, q) m with ⟨d1, q1⟩
    have hd1 : d1 = fun x => if x = m then deg m - 1 else deg x := by
      rw [← decStep_fst deg q m, hd]
    have hq1 : q1 = if deg m - 1 = 0 then q ++ [m] else q := by
      rw [← decStep_snd deg q m, hd]
    rw [ih hndt d1 q1]
    have hfilt : t.filter (fun x => d1 x = 1) = t.filter (fun x => deg x = 1) := by
      apply List.filter_congr
      intro x hx
      have hxm : x ≠ m := fun hc => hm (hc ▸ hx)
      rw [hd1]
      simp [hxm]
    refine Prod.ext ?_ ?_
    · funext x
      dsimp only
      by_cases hxt : x ∈ t
      · have hxm : x ≠ m := fun hc => hm (hc ▸ hxt)
        rw [if_pos hxt, if_pos (by simp [hxt]), hd1]
        simp [hxm]
      · by_cases hxm : x = m
        · subst hxm
          rw [if_neg hxt, if_pos (by simp), hd1]
          simp
        · rw [if_neg hxt, if_neg (by simp [hxt, hxm]), hd1]
          simp [hxm]
    · dsimp only
      rw [hfilt, hq1]
      by_cases h1 : deg m = 1
      · rw [if_pos (by omega)]
        have : (m :: t).filter (fun x => deg x = 1) = m :: t.filter (fun x => deg x = 1) := by
          simp [List.filter_cons, h1]
        rw [this]
        simp
      · rw [if_neg (by omega)]
        have : (m :: t).filter (fun x => deg x = 1) = t.filter (fun x => deg x = 1) := by
          simp [List.filter_cons, h1]
        rw [this]

/-- Invariant of the Kahn loop: what has been output, what is queued, and the
current in-degrees, relative to the graph. -/
structure KInv (g : RedeDisciplinas) (fila : List String) (deg : String → Int)
    (ordem : List String) : Prop where
  nd : (ordem ++ fila).Nodup
  mem : ∀ x ∈ ordem ++ fila, x ∈ chaves g
  degEq : ∀ m ∈ chaves g,
    deg m = (((getPrs g m).filter (fun p => p ∉ ordem)).length : Int)
  ready : ∀ m ∈ chaves g, deg m = 0 → m ∈ ordem ∨ m ∈ fila
  qzero : ∀ m ∈ fila, deg m = 0
  prec : ∀ c ∈ ordem, ∀ p ∈ getPrs g c, antes ordem p c

lemma prs_subset_of_deg_zero {g : RedeDisciplinas} {deg : String → Int}
    {ordem : List String} {m : String} (hm : m ∈ chaves g)
    (hdeg : deg m = (((getPrs g m).filter (fun p => p ∉ ordem)).length : Int))
    (h0 : deg m = 0) : ∀ p ∈ getPrs g m, p ∈ ordem := by
  intro p hp
  have hlen : ((getPrs g m).filter (fun p => p ∉ ordem)).length = 0 := by omega
  have hfil := List.length_eq_zero.mp hlen
  by_contra hpo
  have hmem : p ∈ (getPrs g m).filter (fun p => p ∉ ordem) :=
    List.mem_filter.mpr ⟨hp, by simpa using hpo⟩
  rw [hfil] at hmem
  cases hmem

lemma filter_not_mem_snoc_eq {l ordem : List String} {cur : String} (hc : cur ∉ l) :
    l.filter (fun p => p ∉ ordem ++ [cur]) = l.filter (fun p => p ∉ ordem) := by
  apply List.filter_congr
  intro x hx
  have hxc : x ≠ cur := fun h => hc (h ▸ hx)
  simp [List.mem_append, hxc]

lemma filter_not_mem_snoc_length {l ordem : List String} {cur : String}
    (hl : l.Nodup) (hc : cur ∈ l) (hco : cur ∉ ordem) :
    (l.filter (fun p => p ∉ ordem ++ [cur])).length + 1 =
      (l.filter (fun p => p ∉ ordem)).length := by
  induction l with
  | nil => cases hc
  | cons a t ih =>
    obtain ⟨hat, hndt⟩ := List.nodup_cons.mp hl
    rcases List.mem_cons.mp hc with rfl | hct
    · rw [List.filter_cons_of_neg (by simp), List.filter_cons_of_pos (by simpa using hco),
        filter_not_mem_snoc_eq hat]
      simp
    · have hacur : a ≠ cur := fun h => hat (h ▸ hct)
      by_cases ha : a ∈ ordem
      · rw [List.filter_cons_of_neg (by simp [List.mem_append, ha]),
          List.filter_cons_of_neg (by simp [ha])]
        exact ih hndt hct
      · rw [List.filter_cons_of_pos (by simp [List.mem_append, ha, hacur]),
          List.filter_cons_of_pos (by simp [ha])]
        simp only [List.length_cons]
        have := ih hndt hct
        omega

lemma kinv_step (g : RedeDisciplinas) (hwf : RedeWF g) (hfc : Fechada g)
    (cur : String) (rest ordem : List String) (deg : String → Int)
    (h : KInv g (cur :: rest) deg ordem) :
    KInv g (processa (revAdj g cur) deg rest).2 (processa (revAdj g cur) deg rest).1
      (ordem ++ [cur]) := by
  obtain ⟨hnd, hmem, hdegEq, hready, hqzero, hprec⟩ := h
  have hndR : (revAdj g cur).Nodup := revAdj_nodup hwf cur
  rw [processa_spec _ hndR deg rest]
  dsimp only
  have hmid := List.nodup_middle.mp hnd
  obtain ⟨hcurOR, hOR⟩ := List.nodup_cons.mp hmid
  have hcurO : cur ∉ ordem := fun h => hcurOR (List.mem_append_left _ h)
  have hcurR : cur ∉ rest := fun h => hcurOR (List.mem_append_right _ h)
  have hcurk : cur ∈ chaves g := hmem cur (by simp)
  have hdegcur : deg cur = 0 := hqzero cur (by simp)
  have hprscur : ∀ p ∈ getPrs g cur, p ∈ ordem :=
    prs_subset_of_deg_zero hcurk (hdegEq cur hcurk) hdegcur
  have hdeg_ordem : ∀ m ∈ ordem, deg m = 0 := by
    intro m hmo
    have hmk : m ∈ chaves g := hmem m (List.mem_append_left _ hmo)
    rw [hdegEq m hmk]
    have : (getPrs g m).filter (fun p => p ∉ ordem) = [] := by
      rw [List.filter_eq_nil_iff]
      intro p hp
      have := (hprec m hmo p hp).1
      simpa using this
    rw [this]
    simp
  have hE : ∀ m ∈ (revAdj g cur).filter (fun m => deg m = 1),
      deg m = 1 ∧ m ∈ revAdj g cur := by
    intro m hm
    have := List.mem_filter.mp hm
    exact ⟨by simpa using this.2, this.1⟩
  have hEnotold : ∀ m ∈ (revAdj g cur).filter (fun m => deg m = 1),
      m ∉ ordem ∧ m ≠ cur ∧ m ∉ rest := by
    intro m hm
    obtain ⟨h1, _⟩ := hE m hm
    refine ⟨fun hc => ?_, fun hc => ?_, fun hc => ?_⟩
    · have := hdeg_ordem m hc; omega
    · subst hc; omega
    · have := hqzero m (List.mem_cons_of_mem _ hc); omega
  constructor
  · -- nodup
    have heq : (ordem ++ [cur]) ++ (rest ++ (revAdj g cur).filter (fun m => deg m = 1)) =
        (ordem ++ cur :: rest) ++ (revAdj g cur).filter (fun m => deg m = 1) := by
      simp
    rw [heq]
    refine List.Nodup.append hnd (List.Nodup.filter _ hndR) ?_
    intro a ha haE
    rcases List.mem_append.mp ha with h1 | h1
    · exact (hEnotold a haE).1 h1
    · rcases List.mem_cons.mp h1 with rfl | h2
      · exact (hEnotold a haE).2.1 rfl
      · exact (hEnotold a haE).2.2 h2
  · -- membership
    intro x hx
    rcases List.mem_append.mp hx with h1 | h1
    · rcases List.mem_append.mp h1 with h2 | h2
      · exact hmem x (List.mem_append_left _ h2)
      · have : x = cur := by simpa using h2
        subst this; exact hcurk
    · rcases List.mem_append.mp h1 with h2 | h2
      · exact hmem x (List.mem_append_right _ (List.mem_cons_of_mem _ h2))
      · exact revAdj_subset_chaves (List.mem_of_mem_filter h2)
  · -- degEq
    intro m hmk
    by_cases hmR : m ∈ revAdj g cur
    · rw [if_pos hmR, hdegEq m hmk]
      have hcurprs : cur ∈ getPrs g m := ((mem_revAdj_iff hwf).mp hmR).2
      have := filter_not_mem_snoc_length (getPrs_nodup hwf m) hcurprs hcurO
      omega
    · rw [if_neg hmR, hdegEq m hmk]
      have hcurprs : cur ∉ getPrs g m := by
        intro hc
        exact hmR ((mem_revAdj_iff hwf).mpr ⟨hmk, hc⟩)
      rw [filter_not_mem_snoc_eq hcurprs]
  · -- ready
    intro m hmk h0
    by_cases hmR : m ∈ revAdj g cur
    · rw [if_pos hmR] at h0
      refine Or.inr (List.mem_append_right _ (List.mem_filter.mpr ⟨hmR, by simp; omega⟩))
    · rw [if_neg hmR] at h0
      rcases hready m hmk h0 with h1 | h1
      · exact Or.inl (List.mem_append_left _ h1)
      · rcases List.mem_cons.mp h1 with rfl | h2
        · exact Or.inl (List.mem_append_right _ (by simp))
        · exact Or.inr (List.mem_append_left _ h2)
  · -- qzero
    intro m hm
    rcases List.mem_append.mp hm with h1 | h1
    · have h0 := hqzero m (List.mem_cons_of_mem _ h1)
      have hmR : m ∉ revAdj g cur := by
        intro hc
        have hcurprs := ((mem_revAdj_iff hwf).mp hc).2
        have hmk : m ∈ chaves g := hmem m (List.mem_append_right _ (List.mem_cons_of_mem _ h1))
        have := prs_subset_of_deg_zero hmk (hdegEq m hmk) h0 cur hcurprs
        exact hcurO this
      rw [if_neg hmR]
      exact h0
    · obtain ⟨h1, h2⟩ := hE m h1
      rw [if_pos h2]
      omega
  · -- precedence
    intro c hc p hp
    rcases List.mem_append.mp hc with h1 | h1
    · exact antes_append (hprec c h1 p hp)
    · have : c = cur := by simpa using h1
      subst this
      exact antes_snoc_new (hprscur p hp) hcurO

lemma kinv_init (g : RedeDisciplinas) (hwf : RedeWF g) :
    KInv g (fila_inicial g) (grau_inicial g) [] := by
  have hsub : List.Sublist (fila_inicial g) (chaves g) :=
    List.Sublist.map Prod.fst (List.filter_sublist g)
  constructor
  · simpa using List.Nodup.sublist hsub hwf.1
  · intro x hx
    simp only [List.nil_append] at hx
    exact hsub.subset hx
  · intro m _
    unfold grau_inicial
    congr 1
    have : (getPrs g m).filter (fun p => p ∉ ([] : List String)) = getPrs g m := by
      apply List.filter_eq_self.mpr
      intro a _
      simp
    rw [this]
  · intro m hmk h0
    refine Or.inr ?_
    obtain ⟨l, hl⟩ := mem_chaves_iff.mp hmk
    have hprs : getPrs g m = l := getPrs_eq_of_mem hwf.1 (e := (m, l)) hl
    have hlen : l.length = 0 := by
      unfold grau_inicial at h0
      rw [hprs] at h0
      omega
    unfold fila_inicial
    refine List.mem_map.mpr ⟨(m, l), List.mem_filter.mpr ⟨hl, by simpa using hlen⟩, rfl⟩
  · intro m hm
    unfold fila_inicial at hm
    obtain ⟨e, he, rfl⟩ := List.mem_map.mp hm
    have h1 := List.mem_filter.mp he
    have h2 : getPrs g e.1 = e.2 := getPrs_eq_of_mem hwf.1 h1.1
    unfold grau_inicial
    rw [h2]
    have : e.2.length = 0 := by simpa using h1.2
    omega
  · intro c hc
    cases hc

lemma kahnLoop_nil (g : RedeDisciplinas) (deg : String → Int) (ordem : List String) :
    kahnLoop g [] deg ordem = ordem := by
  simp only [kahnLoop]

lemma kahnLoop_cons (g : RedeDisciplinas) (cur : String) (rest : List String)
    (deg : String → Int) (ordem : List String) :
    kahnLoop g (cur :: rest) deg ordem =
      kahnLoop g (processa (revAdj g cur) deg rest).2
        (processa (revAdj g cur) deg rest).1 (ordem ++ [cur]) := by
  simp only [kahnLoop]

lemma kahnLoop_inv (g : RedeDisciplinas) (hwf : RedeWF g) (hfc : Fechada g) :
    ∀ fila deg ordem, KInv g fila deg ordem →
      ∃ deg2, KInv g [] deg2 (kahnLoop g fila deg ordem) := by
  intro fila deg ordem
  induction fila, deg, ordem using kahnLoop.induct g with
  | case1 deg ordem =>
    intro h
    rw [kahnLoop_nil]
    exact ⟨deg, h⟩
  | case2 deg ordem cur rest dq ih =>
    intro h
    have h2 := kinv_step g hwf hfc cur rest ordem deg h
    obtain ⟨deg2, h3⟩ := ih h2
    refine ⟨deg2, ?_⟩
    rw [kahnLoop_cons]
    exact h3

/-- Terminal facts about a full Kahn run: the produced order is a
duplicate-free list of keys in which every course follows all of its direct
prerequisites, and (on an acyclic graph) covers every key. -/
lemma kahn_spec (g : RedeDisciplinas) (hwf : RedeWF g) (hfc : Fechada g) :
    (kahn g).Nodup ∧ (∀ x ∈ kahn g, x ∈ chaves g) ∧
      (∀ c ∈ kahn g, ∀ p ∈ getPrs g c, antes (kahn g) p c) ∧
      (¬TemCicloProp g → ∀ k ∈ chaves g, k ∈ kahn g) := by
  obtain ⟨deg2, hinv⟩ :=
    kahnLoop_inv g hwf hfc (fila_inicial g) (grau_inicial g) [] (kinv_init g hwf)
  rw [show kahnLoop g (fila_inicial g) (grau_inicial g) [] = kahn g from rfl] at hinv
  obtain ⟨hnd, hmem, hdegEq, hready, hqzero, hprec⟩ := hinv
  simp only [List.append_nil] at hnd hmem
  refine ⟨hnd, hmem, hprec, ?_⟩
  intro hac k hk
  by_contra hkn
  set S : Finset String := ((chaves g).filter (fun x => x ∉ kahn g)).toFinset with hS
  have hkS : k ∈ S := by
    rw [hS]
    simp only [List.mem_toFinset, List.mem_filter]
    exact ⟨hk, by simpa using hkn⟩
  have hstuck : ∀ m ∈ S, ∃ p ∈ S, Aresta g p m := by
    intro m hmS
    rw [hS] at hmS
    simp only [List.mem_toFinset, List.mem_filter] at hmS
    obtain ⟨hmk, hmord⟩ := hmS
    have hmord : m ∉ kahn g := by simpa using hmord
    have hdg : deg2 m ≠ 0 := by
      intro h0
      rcases hready m hmk h0 with h1 | h1
      · exact hmord h1
      · cases h1
    have hlen : ((getPrs g m).filter (fun p => p ∉ kahn g)).length ≠ 0 := by
      intro h0
      exact hdg (by rw [hdegEq m hmk]; omega)
    have hne : (getPrs g m).filter (fun p => p ∉ kahn g) ≠ [] := by
      intro h0
      exact hlen (by rw [h0]; rfl)
    obtain ⟨p, hp⟩ := List.exists_mem_of_ne_nil _ hne
    have hp2 := List.mem_filter.mp hp
    have hpk : p ∈ chaves g := fechada_getPrs hfc hp2.1
    refine ⟨p, ?_, hp2.1⟩
    rw [hS]
    simp only [List.mem_toFinset, List.mem_filter]
    exact ⟨hpk, hp2.2⟩
  exact hac (exists_cycle_of_stuck S ⟨k, hkS⟩ hstuck)

lemma antes_of_transGen {g : RedeDisciplinas} {ordem : List String}
    (hprec : ∀ c ∈ ordem, ∀ p ∈ getPrs g c, antes ordem p c)
    {x y : String} (hxy : Relation.TransGen (Aresta g) x y) :
    y ∈ ordem → antes ordem x y := by
  induction hxy with
  | single h => intro hy; exact hprec _ hy _ h
  | tail hxb h ih =>
    intro hy
    have hby := hprec _ hy _ h
    exact antes_trans (ih hby.1) hby

lemma transGen_snd_chaves {g : RedeDisciplinas} {x y : String}
    (h : Relation.TransGen (Aresta g) x y) : y ∈ chaves g := by
  induction h with
  | single h1 => exact aresta_mem_chaves h1
  | tail _ h1 _ => exact aresta_mem_chaves h1

lemma kahn_perm (g : RedeDisciplinas) (hwf : RedeWF g) (hfc : Fechada g)
    (hac : ¬TemCicloProp g) : (kahn g).Perm (chaves g) := by
  obtain ⟨hnd, hmem, _, hcov⟩ := kahn_spec g hwf hfc
  exact (List.perm_ext_iff_of_nodup hnd hwf.1).mpr
    (fun a => ⟨fun h => hmem a h, fun h => hcov hac a h⟩)

lemma kahn_length_iff (g : RedeDisciplinas) (hwf : RedeWF g) (hfc : Fechada g) :
    (kahn g).length = g.length ↔ ¬TemCicloProp g := by
  obtain ⟨hnd, hmem, hprec, _⟩ := kahn_spec g hwf hfc
  constructor
  · intro hlen hcy
    obtain ⟨x, hx⟩ := hcy
    have hperm : (kahn g).Perm (chaves g) := by
      refine List.Subperm.perm_of_length_le (List.subperm_of_subset hnd hmem) ?_
      rw [hlen, chaves_length]
    have hxk : x ∈ kahn g := hperm.mem_iff.mpr (transGen_snd_chaves hx)
    exact antes_irrefl (antes_of_transGen hprec hx hxk)
  · intro hac
    rw [← chaves_length g]
    exact (kahn_perm g hwf hfc hac).length_eq

/-! ## Correctness of the ancestor DFS (`todos_prerequisitos`) -/

lemma todosLoop_nil (g : RedeDisciplinas) (vistos : List String) :
    todosLoop g [] vistos = vistos := by
  simp only [todosLoop]

lemma todosLoop_cons_mem (g : RedeDisciplinas) {cur : String} {vistos : List String}
    (rest : List String) (h : cur ∈ vistos) :
    todosLoop g (cur :: rest) vistos = todosLoop g rest vistos := by
  simp only [todosLoop, if_pos h]

lemma todosLoop_cons_new (g : RedeDisciplinas) {cur : String} {vistos : List String}
    (rest : List String) (h : cur ∉ vistos) :
    todosLoop g (cur :: rest) vistos =
      todosLoop g (getPrs g cur ++ rest) (cur :: vistos) := by
  simp only [todosLoop, if_neg h]

lemma todosLoop_mono (g : RedeDisciplinas) :
    ∀ pilha vistos, ∀ x ∈ vistos, x ∈ todosLoop g pilha vistos := by
  intro pilha vistos
  induction pilha, vistos using todosLoop.induct g with
  | case1 vistos =>
    intro x hx
    rw [todosLoop_nil]
    exact hx
  | case2 vistos cur rest hmem ih =>
    intro x hx
    rw [todosLoop_cons_mem g rest hmem]
    exact ih x hx
  | case3 vistos cur rest hmem ih =>
    intro x hx
    rw [todosLoop_cons_new g rest hmem]
    exact ih x (List.mem_cons_of_mem _ hx)

lemma todosLoop_pilha (g : RedeDisciplinas) :
    ∀ pilha vistos, ∀ x ∈ pilha, x ∈ todosLoop g pilha vistos := by
  intro pilha vistos
  induction pilha, vistos using todosLoop.induct g with
  | case1 vistos => intro x hx; cases hx
  | case2 vistos cur rest hmem ih =>
    intro x hx
    rw [todosLoop_cons_mem g rest hmem]
    rcases List.mem_cons.mp hx with rfl | hx2
    · exact todosLoop_mono g rest vistos x hmem
    · exact ih x hx2
  | case3 vistos cur rest hmem ih =>
    intro x hx
    rw [todosLoop_cons_new g rest hmem]
    rcases List.mem_cons.mp hx with rfl | hx2
    · exact todosLoop_mono g _ _ x (by simp)
    · exact ih x (List.mem_append_right _ hx2)

lemma todosLoop_nodup (g : RedeDisciplinas) :
    ∀ pilha vistos, vistos.Nodup → (todosLoop g pilha vistos).Nodup := by
  intro pilha vistos
  induction pilha, vistos using todosLoop.induct g with
  | case1 vistos =>
    intro h
    rw [todosLoop_nil]
    exact h
  | case2 vistos cur rest hmem ih =>
    intro h
    rw [todosLoop_cons_mem g rest hmem]
    exact ih h
  | case3 vistos cur rest hmem ih =>
    intro h
    rw [todosLoop_cons_new g rest hmem]
    exact ih (List.nodup_cons.mpr ⟨hmem, h⟩)

lemma todosLoop_closed (g : RedeDisciplinas) :
    ∀ pilha vistos,
      (∀ v ∈ vistos, ∀ p ∈ getPrs g v, p ∈ vistos ∨ p ∈ pilha) →
      ∀ v ∈ todosLoop g pilha vistos, ∀ p ∈ getPrs g v,
        p ∈ todosLoop g pilha vistos := by
  intro pilha vistos
  induction pilha, vistos using todosLoop.induct g with
  | case1 vistos =>
    intro hcl v hv p hp
    rw [todosLoop_nil] at hv ⊢
    rcases hcl v hv p hp with h | h
    · exact h
    · cases h
  | case2 vistos cur rest hmem ih =>
    intro hcl v hv p hp
    rw [todosLoop_cons_mem g rest hmem] at hv ⊢
    refine ih ?_ v hv p hp
    intro w hw q hq
    rcases hcl w hw q hq with h | h
    · exact Or.inl h
    · rcases List.mem_cons.mp h with rfl | h2
      · exact Or.inl hmem
      · exact Or.inr h2
  | case3 vistos cur rest hmem ih =>
    intro hcl v hv p hp
    rw [todosLoop_cons_new g rest hmem] at hv ⊢
    refine ih ?_ v hv p hp
    intro w hw q hq
    rcases List.mem_cons.mp hw with rfl | hw2
    · exact Or.inr (List.mem_append_left _ hq)
    · rcases hcl w hw2 q hq with h | h
      · exact Or.inl (List.mem_cons_of_mem _ h)
      · rcases List.mem_cons.mp h with rfl | h2
        · exact Or.inl (by simp)
        · exact Or.inr (List.mem_append_right _ h2)

lemma todosLoop_sound (g : RedeDisciplinas) (S : String → Prop)
    (hS : ∀ c p, S c → p ∈ getPrs g c → S p) :
    ∀ pilha vistos, (∀ x ∈ pilha, S x) → (∀ x ∈ vistos, S x) →
      ∀ v ∈ todosLoop g pilha vistos, S v := by
  intro pilha vistos
  induction pilha, vistos using todosLoop.induct g with
  | case1 vistos =>
    intro _ hv v hmem
    rw [todosLoop_nil] at hmem
    exact hv v hmem
  | case2 vistos cur rest hmem ih =>
    intro hp hv v hvm
    rw [todosLoop_cons_mem g rest hmem] at hvm
    exact ih (fun x hx => hp x (List.mem_cons_of_mem _ hx)) hv v hvm
  | case3 vistos cur rest hmem ih =>
    intro hp hv v hvm
    rw [todosLoop_cons_new g rest hmem] at hvm
    have hScur : S cur := hp cur (by simp)
    refine ih ?_ ?_ v hvm
    · intro x hx
      rcases List.mem_append.mp hx with h | h
      · exact hS cur x hScur h
      · exact hp x (List.mem_cons_of_mem _ h)
    · intro x hx
      rcases List.mem_cons.mp hx with rfl | h
      · exact hScur
      · exact hv x h

/-- The set computed by `todos_prerequisitos` is exactly the set of courses
from which the target is reachable along direct-prerequisite edges. -/
lemma mem_todosLoop_iff (g : RedeDisciplinas) (alvo : String) (x : String) :
    x ∈ todosLoop g (getPrs g alvo) [] ↔
      Relation.TransGen (Aresta g) x alvo := by
  constructor
  · intro hx
    refine todosLoop_sound g (fun v => Relation.TransGen (Aresta g) v alvo)
      ?_ (getPrs g alvo) [] ?_ (by intro y hy; cases hy) x hx
    · intro c p hc hp
      exact Relation.TransGen.head hp hc
    · intro p hp
      exact Relation.TransGen.single hp
  · intro hx
    have hclosed := todosLoop_closed g (getPrs g alvo) []
      (by intro v hv; cases hv)
    have hpilha := todosLoop_pilha g (getPrs g alvo) []
    induction hx using Relation.TransGen.head_induction_on with
    | base h => exact hpilha _ h
    | ih h1 h2 ih => exact hclosed _ ih _ h1

/-! ## Correctness of the dependency DFS (`existe_dependencia`) -/

lemma buscaLoop_nil (g : RedeDisciplinas) (a : String) (vis : List String) :
    buscaLoop g a [] vis = false := by
  simp only [buscaLoop]

lemma buscaLoop_hit (g : RedeDisciplinas) {a cur : String} (rest vis : List String)
    (h : cur = a) : buscaLoop g a (cur :: rest) vis = true := by
  simp only [buscaLoop, if_pos h]

lemma buscaLoop_skip (g : RedeDisciplinas) {a cur : String} (rest : List String)
    {vis : List String} (hne : ¬ cur = a) (h : cur ∈ vis) :
    buscaLoop g a (cur :: rest) vis = buscaLoop g a rest vis := by
  simp only [buscaLoop, if_neg hne, if_pos h]

lemma buscaLoop_push (g : RedeDisciplinas) {a cur : String} (rest : List String)
    {vis : List String} (hne : ¬ cur = a) (h : cur ∉ vis) :
    buscaLoop g a (cur :: rest) vis =
      buscaLoop g a (getPrs g cur ++ rest) (cur :: vis) := by
  simp only [buscaLoop, if_neg hne, if_neg h]

lemma buscaLoop_sound (g : RedeDisciplinas) (a : String) :
    ∀ pilha vis, buscaLoop g a pilha vis = true →
      ∃ x ∈ pilha, Relation.ReflTransGen (Aresta g) a x := by
  intro pilha vis
  induction pilha, vis using buscaLoop.induct g a with
  | case1 vis =>
    intro h
    rw [buscaLoop_nil] at h
    cases h
  | case2 vis rest =>
    intro _
    exact ⟨a, by simp, Relation.ReflTransGen.refl⟩
  | case3 vis cur rest hne hmem ih =>
    intro h
    rw [buscaLoop_skip g rest hne hmem] at h
    obtain ⟨x, hx1, hx2⟩ := ih h
    exact ⟨x, List.mem_cons_of_mem _ hx1, hx2⟩
  | case4 vis cur rest hne hmem ih =>
    intro h
    rw [buscaLoop_push g rest hne hmem] at h
    obtain ⟨x, hx1, hx2⟩ := ih h
    rcases List.mem_append.mp hx1 with h1 | h1
    · exact ⟨cur, by simp, Relation.ReflTransGen.tail hx2 h1⟩
    · exact ⟨x, List.mem_cons_of_mem _ h1, hx2⟩

lemma buscaLoop_complete (g : RedeDisciplinas) (a : String) :
    ∀ pilha vis, buscaLoop g a pilha vis = false → a ∉ vis →
      (∀ v ∈ vis, ∀ p ∈ getPrs g v, p ∈ vis ∨ p ∈ pilha) →
      ∀ x, (x ∈ pilha ∨ x ∈ vis) → ¬ Relation.ReflTransGen (Aresta g) a x := by
  intro pilha vis
  induction pilha, vis using buscaLoop.induct g a with
  | case1 vis =>
    intro _ hav hcl x hx
    rcases hx with hx | hx
    · cases hx
    · -- the visited set is closed under predecessors: walk the path back
      intro hpath
      have hstep : ∀ y z, Relation.ReflTransGen (Aresta g) y z → z ∈ vis → y ∈ vis := by
        intro y z hyz
        induction hyz with
        | refl => exact id
        | tail h1 h2 ih =>
          intro hz
          rcases hcl _ hz _ h2 with hv | hv
          · exact ih hv
          · cases hv
      exact hav (hstep a x hpath hx)
  | case2 vis rest =>
    intro h
    rw [buscaLoop_hit g rest vis rfl] at h
    cases h
  | case3 vis cur rest hne hmem ih =>
    intro h hav hcl x hx
    rw [buscaLoop_skip g rest hne hmem] at h
    refine ih h hav ?_ x ?_
    · intro v hv p hp
      rcases hcl v hv p hp with h1 | h1
      · exact Or.inl h1
      · rcases List.mem_cons.mp h1 with rfl | h2
        · exact Or.inl hmem
        · exact Or.inr h2
    · rcases hx with hx | hx
      · rcases List.mem_cons.mp hx with rfl | h2
        · exact Or.inr hmem
        · exact Or.inl h2
      · exact Or.inr hx
  | case4 vis cur rest hne hmem ih =>
    intro h hav hcl x hx
    rw [buscaLoop_push g rest hne hmem] at h
    have hav2 : a ∉ cur :: vis := by
      intro hc
      rcases List.mem_cons.mp hc with rfl | h2
      · exact hne rfl
      · exact hav h2
    refine ih h hav2 ?_ x ?_
    · intro v hv p hp
      rcases List.mem_cons.mp hv with rfl | hv2
      · exact Or.inr (List.mem_append_left _ hp)
      · rcases hcl v hv2 p hp with h1 | h1
        · exact Or.inl (List.mem_cons_of_mem _ h1)
        · rcases List.mem_cons.mp h1 with rfl | h2
          · exact Or.inl (by simp)
          · exact Or.inr (List.mem_append_right _ h2)
    · rcases hx with hx | hx
      · rcases List.mem_cons.mp hx with rfl | h2
        · exact Or.inr (by simp)
        · exact Or.inl (List.mem_append_right _ h2)
      · exact Or.inr (List.mem_cons_of_mem _ hx)

/-- `existe_dependencia` decides transitive dependency (for known courses). -/
lemma existe_dependencia_iff (g : RedeDisciplinas) (a b : String) :
    existe_dependencia g a b = true ↔
      a ∈ chaves g ∧ b ∈ chaves g ∧ Relation.TransGen (Aresta g) a b := by
  unfold existe_dependencia
  by_cases hb : b ∈ chaves g
  · by_cases ha : a ∈ chaves g
    · rw [if_neg (by simp [ha, hb])]
      constructor
      · intro h
        obtain ⟨x, hx1, hx2⟩ := buscaLoop_sound g a (getPrs g b) [] h
        exact ⟨ha, hb, Relation.TransGen.tail'_iff.mpr ⟨x, hx2, hx1⟩⟩
      · rintro ⟨-, -, htg⟩
        obtain ⟨x, hx1, hx2⟩ := Relation.TransGen.tail'_iff.mp htg
        by_contra hfalse
        have hf : buscaLoop g a (getPrs g b) [] = false := by
          cases hbl : buscaLoop g a (getPrs g b) [] with
          | true => exact absurd hbl hfalse
          | false => rfl
        exact buscaLoop_complete g a (getPrs g b) [] hf (by simp)
          (by intro v hv; cases hv) x (Or.inl hx2) hx1
    · rw [if_pos (by simp [ha])]
      simp [ha]
  · rw [if_pos (by simp [hb])]
    simp [hb]

/-! ## The induced sub-graph of a study plan -/

lemma addElem_nodup {l : List String} {x : String} (h : l.Nodup) :
    (addElem l x).Nodup := by
  unfold addElem
  by_cases hx : x ∈ l
  · rw [if_pos hx]; exact h
  · rw [if_neg hx]
    exact List.Nodup.append h (List.nodup_singleton x) (by
      intro a ha hax
      have : a = x := by simpa using hax
      exact hx (this ▸ ha))

lemma necessario_nodup (g : RedeDisciplinas) (alvo : String) :
    (necessario g alvo).Nodup :=
  addElem_nodup (todosLoop_nodup g (getPrs g alvo) [] List.nodup_nil)

lemma mem_necessario_iff (g : RedeDisciplinas) (alvo x : String) :
    x ∈ necessario g alvo ↔
      Relation.TransGen (Aresta g) x alvo ∨ x = alvo := by
  unfold necessario
  rw [mem_addElem, mem_todosLoop_iff]

lemma alvo_mem_necessario (g : RedeDisciplinas) (alvo : String) :
    alvo ∈ necessario g alvo :=
  (mem_necessario_iff g alvo alvo).mpr (Or.inr rfl)

lemma getPrs_mapGraph (f : String → List String) :
    ∀ (l : List String) (x : String),
      getPrs (l.map (fun n => (n, f n))) x = if x ∈ l then f x else [] := by
  intro l
  induction l with
  | nil => intro x; simp [getPrs]
  | cons n t ih =>
    intro x
    by_cases hx : x = n
    · subst hx
      unfold getPrs
      simp
    · have hbeq : (x == n) = false := by simpa using hx
      unfold getPrs at ih ⊢
      simp only [List.map_cons, List.find?_cons]
      have : (n == x) = false := by
        simp only [beq_eq_false_iff_ne]
        exact fun h => hx h.symm
      simp only [this]
      rw [ih x]
      by_cases hxt : x ∈ t
      · rw [if_pos hxt, if_pos (List.mem_cons_of_mem _ hxt)]
      · rw [if_neg hxt, if_neg (by simp [hx, hxt])]

lemma chaves_mapGraph (f : String → List String) (l : List String) :
    chaves (l.map (fun n => (n, f n))) = l := by
  unfold chaves
  rw [List.map_map]
  have hid : (Prod.fst ∘ fun n => (n, f n)) = id := by funext x; rfl
  rw [hid, List.map_id]

lemma chaves_subRede (g : RedeDisciplinas) (alvo : String) :
    chaves (subRede g alvo) = necessario g alvo :=
  chaves_mapGraph _ _

lemma getPrs_subRede (g : RedeDisciplinas) (alvo x : String) :
    getPrs (subRede g alvo) x =
      if x ∈ necessario g alvo then
        (getPrs g x).filter (fun p => p ∈ necessario g alvo)
      else [] :=
  getPrs_mapGraph _ _ x

lemma subRede_wf (g : RedeDisciplinas) (hwf : RedeWF g) (alvo : String) :
    RedeWF (subRede g alvo) := by
  constructor
  · rw [chaves_subRede]
    exact necessario_nodup g alvo
  · intro e he
    unfold subRede at he
    obtain ⟨n, _, rfl⟩ := List.mem_map.mp he
    exact List.Nodup.filter _ (getPrs_nodup hwf n)

lemma subRede_fechada (g : RedeDisciplinas) (alvo : String) :
    Fechada (subRede g alvo) := by
  intro e he p hp
  unfold subRede at he
  obtain ⟨n, _, rfl⟩ := List.mem_map.mp he
  rw [chaves_subRede]
  have := List.mem_filter.mp hp
  simpa using this.2

lemma aresta_subRede_iff (g : RedeDisciplinas) (alvo p c : String) :
    Aresta (subRede g alvo) p c ↔
      p ∈ necessario g alvo ∧ c ∈ necessario g alvo ∧ Aresta g p c := by
  unfold Aresta
  rw [getPrs_subRede]
  by_cases hc : c ∈ necessario g alvo
  · rw [if_pos hc]
    simp only [List.mem_filter]
    constructor
    · rintro ⟨h1, h2⟩
      exact ⟨by simpa using h2, hc, h1⟩
    · rintro ⟨h1, -, h3⟩
      exact ⟨h3, by simpa using h1⟩
  · rw [if_neg hc]
    simp [hc]

lemma transGen_to_alvo_mem (g : RedeDisciplinas) {alvo y x : String}
    (hy : y ∈ necessario g alvo) (hxy : Relation.TransGen (Aresta g) x y) :
    x ∈ necessario g alvo := by
  rw [mem_necessario_iff]
  rcases (mem_necessario_iff g alvo y).mp hy with h | rfl
  · exact Or.inl (Relation.TransGen.trans hxy h)
  · exact Or.inl hxy

/-- Paths of the full graph ending inside the required set are confined to the
induced sub-graph. -/
lemma transGen_subRede_of (g : RedeDisciplinas) {alvo y x : String}
    (hy : y ∈ necessario g alvo) (hxy : Relation.TransGen (Aresta g) x y) :
    Relation.TransGen (Aresta (subRede g alvo)) x y := by
  induction hxy using Relation.TransGen.head_induction_on with
  | base h =>
    refine Relation.TransGen.single ((aresta_subRede_iff g alvo _ _).mpr ⟨?_, hy, h⟩)
    exact transGen_to_alvo_mem g hy (Relation.TransGen.single h)
  | ih h1 h2 ih =>
    rename_i x' z
    have hz : z ∈ necessario g alvo := transGen_to_alvo_mem g hy h2
    have hx : x' ∈ necessario g alvo :=
      transGen_to_alvo_mem g hz (Relation.TransGen.single h1)
    exact Relation.TransGen.head ((aresta_subRede_iff g alvo _ _).mpr ⟨hx, hz, h1⟩) ih

lemma transGen_subRede_mono (g : RedeDisciplinas) (alvo : String) {x y : String}
    (h : Relation.TransGen (Aresta (subRede g alvo)) x y) :
    Relation.TransGen (Aresta g) x y :=
  Relation.TransGen.mono (fun a b hab => ((aresta_subRede_iff g alvo a b).mp hab).2.2) h

/-! ## Properties of `plano_de_estudo_para` -/

lemma plano_unknown (g : RedeDisciplinas) {alvo : String} (h : alvo ∉ chaves g) :
    plano_de_estudo_para g alvo = .error .unknownCourse := by
  unfold plano_de_estudo_para
  rw [if_neg h]

lemma plano_eq_ok_iff (g : RedeDisciplinas) {alvo : String} (halvo : alvo ∈ chaves g)
    {ordem : List String} :
    plano_de_estudo_para g alvo = .ok ordem ↔
      ordem = kahn (subRede g alvo) ∧
        (kahn (subRede g alvo)).length = (subRede g alvo).length := by
  unfold plano_de_estudo_para
  rw [if_pos halvo]
  by_cases hlen : (kahn (subRede g alvo)).length = (subRede g alvo).length
  · rw [if_pos hlen]
    constructor
    · intro h
      cases h
      exact ⟨rfl, hlen⟩
    · rintro ⟨rfl, -⟩
      rfl
  · rw [if_neg hlen]
    constructor
    · intro h
      cases h
    · rintro ⟨-, h⟩
      exact absurd h hlen

lemma plano_cycle_iff (g : RedeDisciplinas) (hwf : RedeWF g) {alvo : String}
    (halvo : alvo ∈ chaves g) :
    plano_de_estudo_para g alvo = .error .cycleDetected ↔
      TemCicloProp (subRede g alvo) := by
  have hiff := kahn_length_iff (subRede g alvo) (subRede_wf g hwf alvo)
    (subRede_fechada g alvo)
  unfold plano_de_estudo_para
  rw [if_pos halvo]
  by_cases hlen : (kahn (subRede g alvo)).length = (subRede g alvo).length
  · rw [if_pos hlen]
    constructor
    · intro h
      cases h
    · intro hcy
      exact absurd (hiff.mp hlen) (by simpa using hcy)
  · rw [if_neg hlen]
    constructor
    · intro _
      by_contra hcy
      exact hlen (hiff.mpr hcy)
    · intro _
      rfl

lemma indexOf_snoc_length {l2 : List String} {L : String} (hnotin : L ∉ l2) :
    (l2 ++ [L]).indexOf L = l2.length := by
  rw [List.indexOf_append_of_not_mem hnotin]
  simp [List.indexOf_cons_self]

lemma antes_getLast_false {l : List String} (hnd : l.Nodup) (h : l ≠ []) {b : String}
    (hab : antes l (l.getLast h) b) : False := by
  obtain ⟨h1, h2, h3⟩ := hab
  obtain ⟨L, hLdef⟩ : ∃ L, l.getLast h = L := ⟨_, rfl⟩
  obtain ⟨l2, hl2⟩ : ∃ l2, l2 ++ [L] = l :=
    ⟨l.dropLast, by rw [← hLdef]; exact List.dropLast_append_getLast h⟩
  subst hl2
  rw [hLdef] at h3
  have hnotin : L ∉ l2 := by
    intro hc
    exact (List.nodup_append.mp hnd).2.2 hc (by simp)
  rw [indexOf_snoc_length hnotin] at h3
  have hb := List.indexOf_lt_length.mpr h2
  rw [List.length_append] at hb
  simp only [List.length_singleton] at hb
  omega

/-- Everything that holds of a successful study plan. -/
lemma plano_ok_spec (g : RedeDisciplinas) (hwf : RedeWF g) {alvo : String}
    {ordem : List String} (h : plano_de_estudo_para g alvo = .ok ordem) :
    ordem.Nodup ∧
      (∀ x, x ∈ ordem ↔ x ∈ necessario g alvo) ∧
      ¬ TemCicloProp (subRede g alvo) ∧
      (∀ x y, y ∈ ordem → Relation.TransGen (Aresta g) x y → antes ordem x y) ∧
      (∀ h2 : ordem ≠ [], ordem.getLast h2 = alvo) ∧
      ordem ≠ [] := by
  have halvo : alvo ∈ chaves g := by
    by_contra hc
    rw [plano_unknown g hc] at h
    cases h
  obtain ⟨rfl, hlen⟩ := (plano_eq_ok_iff g halvo).mp h
  have hwfs := subRede_wf g hwf alvo
  have hfcs := subRede_fechada g alvo
  obtain ⟨hnd, hmem, hprec, hcov⟩ := kahn_spec (subRede g alvo) hwfs hfcs
  have hac : ¬TemCicloProp (subRede g alvo) :=
    (kahn_length_iff (subRede g alvo) hwfs hfcs).mp hlen
  have hmemiff : ∀ x, x ∈ kahn (subRede g alvo) ↔ x ∈ necessario g alvo := by
    intro x
    constructor
    · intro hx
      have := hmem x hx
      rwa [chaves_subRede] at this
    · intro hx
      exact hcov hac x (by rw [chaves_subRede]; exact hx)
  have hprecFull : ∀ x y, y ∈ kahn (subRede g alvo) →
      Relation.TransGen (Aresta g) x y → antes (kahn (subRede g alvo)) x y := by
    intro x y hy hxy
    have hynec : y ∈ necessario g alvo := (hmemiff y).mp hy
    exact antes_of_transGen hprec (transGen_subRede_of g hynec hxy) hy
  have halvoMem : alvo ∈ kahn (subRede g alvo) :=
    (hmemiff alvo).mpr (alvo_mem_necessario g alvo)
  have hne : kahn (subRede g alvo) ≠ [] := List.ne_nil_of_mem halvoMem
  refine ⟨hnd, hmemiff, hac, hprecFull, ?_, hne⟩
  intro h2
  by_contra hLne
  have hL : (kahn (subRede g alvo)).getLast h2 ∈ kahn (subRede g alvo) :=
    List.getLast_mem h2
  rcases (mem_necessario_iff g alvo _).mp ((hmemiff _).mp hL) with htg | heq
  · exact antes_getLast_false hnd h2 (hprecFull _ alvo halvoMem htg)
  · exact hLne heq

/-! ## The level loop: closed forms of the folds -/

lemma foldl_addElem_nodup : ∀ (l acc : List String), acc.Nodup →
    (l.foldl addElem acc).Nodup := by
  intro l
  induction l with
  | nil => intro acc h; exact h
  | cons x t ih =>
    intro acc h
    simp only [List.foldl_cons]
    exact ih _ (addElem_nodup h)

lemma nivDec_eq_of_pos {sub : RedeDisciplinas} {n m : String}
    {dp : (String → Int) × List String} (h : n ∈ getPrs sub m) :
    nivDec sub n dp m =
      (fun x => if x = m then dp.1 m - 1 else dp.1 x,
       if dp.1 m - 1 = 0 then addElem dp.2 m else dp.2) := by
  unfold nivDec
  rw [if_pos h]

lemma nivDec_eq_of_neg {sub : RedeDisciplinas} {n m : String}
    {dp : (String → Int) × List String} (h : n ∉ getPrs sub m) :
    nivDec sub n dp m = dp := by
  unfold nivDec
  rw [if_neg h]

lemma nivStep_spec (sub : RedeDisciplinas) (n : String) :
    ∀ (nec : List String), nec.Nodup → ∀ (deg : String → Int) (prox : List String),
      (nivStep sub nec (deg, prox) n).1 =
          (fun m => if m ∈ nec ∧ n ∈ getPrs sub m then deg m - 1 else deg m) ∧
        (∀ x, x ∈ (nivStep sub nec (deg, prox) n).2 ↔
          x ∈ prox ∨ (x ∈ nec ∧ n ∈ getPrs sub x ∧ deg x = 1)) ∧
        (prox.Nodup → (nivStep sub nec (deg, prox) n).2.Nodup) := by
  intro nec
  induction nec with
  | nil =>
    intro _ deg prox
    refine ⟨?_, ?_, ?_⟩
    · funext x; simp [nivStep]
    · intro x; simp [nivStep]
    · intro h; simpa [nivStep] using h
  | cons m t ih =>
    intro hnd deg prox
    obtain ⟨hmt, hndt⟩ := List.nodup_cons.mp hnd
    unfold nivStep at ih ⊢
    simp only [List.foldl_cons]
    by_cases hn : n ∈ getPrs sub m
    · rw [nivDec_eq_of_pos hn]
      obtain ⟨ih1, ih2, ih3⟩ := ih hndt
        (fun x => if x = m then deg m - 1 else deg x)
        (if deg m - 1 = 0 then addElem prox m else prox)
      refine ⟨?_, ?_, ?_⟩
      · rw [ih1]
        funext x
        by_cases hxt : x ∈ t
        · have hxm : x ≠ m := fun hc => hmt (hc ▸ hxt)
          simp [hxt, hxm, hn]
        · by_cases hxm : x = m
          · subst hxm
            simp [hxt, hn, hmt]
          · simp [hxt, hxm]
      · intro x
        rw [ih2 x]
        have hproxmem : x ∈ (if deg m - 1 = 0 then addElem prox m else prox) ↔
            x ∈ prox ∨ (deg m = 1 ∧ x = m) := by
          by_cases h0 : deg m - 1 = 0
          · rw [if_pos h0, mem_addElem]
            constructor
            · rintro (h | rfl)
              · exact Or.inl h
              · exact Or.inr ⟨by omega, rfl⟩
            · rintro (h | ⟨-, rfl⟩)
              · exact Or.inl h
              · exact Or.inr rfl
          · rw [if_neg h0]
            constructor
            · exact Or.inl
            · rintro (h | ⟨h1, rfl⟩)
              · exact h
              · omega
        rw [hproxmem]
        constructor
        · rintro ((h | ⟨h1, rfl⟩) | ⟨h1, h2, h3⟩)
          · exact Or.inl h
          · exact Or.inr ⟨by simp, hn, h1⟩
          · have hxm : x ≠ m := fun hc => hmt (hc ▸ h1)
            refine Or.inr ⟨List.mem_cons_of_mem _ h1, h2, ?_⟩
            simpa [hxm] using h3
        · rintro (h | ⟨h1, h2, h3⟩)
          · exact Or.inl (Or.inl h)
          · rcases List.mem_cons.mp h1 with rfl | h4
            · exact Or.inl (Or.inr ⟨h3, rfl⟩)
            · have hxm : x ≠ m := fun hc => hmt (hc ▸ h4)
              exact Or.inr ⟨h4, h2, by simpa [hxm] using h3⟩
      · intro hprox
        refine ih3 ?_
        by_cases h0 : deg m - 1 = 0
        · rw [if_pos h0]; exact addElem_nodup hprox
        · rw [if_neg h0]; exact hprox
    · rw [nivDec_eq_of_neg hn]
      obtain ⟨ih1, ih2, ih3⟩ := ih hndt deg prox
      refine ⟨?_, ?_, ih3⟩
      · rw [ih1]
        funext x
        by_cases hxm : x = m
        · subst hxm
          simp [hmt, hn]
        · simp [hxm]
      · intro x
        rw [ih2 x]
        constructor
        · rintro (h | ⟨h1, h2, h3⟩)
          · exact Or.inl h
          · exact Or.inr ⟨List.mem_cons_of_mem _ h1, h2, h3⟩
        · rintro (h | ⟨h1, h2, h3⟩)
          · exact Or.inl h
          · rcases List.mem_cons.mp h1 with rfl | h4
            · exact absurd h2 hn
            · exact Or.inr ⟨h4, h2, h3⟩

lemma nivOuter_spec (sub : RedeDisciplinas) (nec : List String) (hndnec : nec.Nodup) :
    ∀ (disp : List String) (deg : String → Int) (prox : List String),
      ((disp.foldl (nivStep sub nec) (deg, prox)).1 =
          fun m => if m ∈ nec then
            deg m - ((disp.filter (fun n => n ∈ getPrs sub m)).length : Int)
          else deg m) ∧
        (∀ x, x ∈ (disp.foldl (nivStep sub nec) (deg, prox)).2 ↔
          x ∈ prox ∨ (x ∈ nec ∧ 1 ≤ deg x ∧
            deg x ≤ ((disp.filter (fun n => n ∈ getPrs sub x)).length : Int))) ∧
        (prox.Nodup → (disp.foldl (nivStep sub nec) (deg, prox)).2.Nodup) := by
  intro disp
  induction disp with
  | nil =>
    intro deg prox
    refine ⟨?_, ?_, fun h => h⟩
    · funext m
      simp
    · intro x
      simp only [List.foldl_nil, List.filter_nil, List.length_nil]
      constructor
      · exact Or.inl
      · rintro (h | ⟨-, h2, h3⟩)
        · exact h
        · omega
  | cons n t ih =>
    intro deg prox
    simp only [List.foldl_cons]
    rcases hstep : nivStep sub nec (deg, prox) n with ⟨deg1, prox1⟩
    obtain ⟨hs1, hs2, hs3⟩ := nivStep_spec sub n nec hndnec deg prox
    rw [hstep] at hs1 hs2 hs3
    dsimp only at hs1 hs2 hs3
    obtain ⟨ih1, ih2, ih3⟩ := ih deg1 prox1
    refine ⟨?_, ?_, ?_⟩
    · rw [ih1]
      funext m
      by_cases hm : m ∈ nec
      · rw [if_pos hm, if_pos hm]
        by_cases hn : n ∈ getPrs sub m
        · rw [List.filter_cons_of_pos (by simpa using hn)]
          have : deg1 m = deg m - 1 := by rw [hs1]; simp [hm, hn]
          rw [this]
          simp only [List.length_cons]
          push_cast
          ring
        · rw [List.filter_cons_of_neg (by simpa using hn)]
          have : deg1 m = deg m := by rw [hs1]; simp [hn]
          rw [this]
      · rw [if_neg hm, if_neg hm]
        rw [hs1]
        simp [hm]
    · intro x
      rw [ih2 x, hs2 x]
      by_cases hx : x ∈ nec
      · by_cases hn : n ∈ getPrs sub x
        · rw [List.filter_cons_of_pos (by simpa using hn)]
          have hd1 : deg1 x = deg x - 1 := by rw [hs1]; simp [hx, hn]
          rw [hd1]
          simp only [List.length_cons]
          constructor
          · rintro ((h | ⟨-, -, h3⟩) | ⟨-, h2, h3⟩)
            · exact Or.inl h
            · refine Or.inr ⟨hx, by omega, ?_⟩
              push_cast
              omega
            · refine Or.inr ⟨hx, by omega, ?_⟩
              push_cast
              push_cast at h3
              omega
          · rintro (h | ⟨-, h2, h3⟩)
            · exact Or.inl (Or.inl h)
            · push_cast at h3
              by_cases hone : deg x = 1
              · exact Or.inl (Or.inr ⟨hx, hn, hone⟩)
              · refine Or.inr ⟨hx, by omega, by push_cast; omega⟩
        · rw [List.filter_cons_of_neg (by simpa using hn)]
          have hd1 : deg1 x = deg x := by rw [hs1]; simp [hn]
          rw [hd1]
          constructor
          · rintro ((h | ⟨-, h2, -⟩) | h)
            · exact Or.inl h
            · exact absurd h2 hn
            · exact Or.inr h
          · rintro (h | h)
            · exact Or.inl (Or.inl h)
            · exact Or.inr h
      · have hd1 : deg1 x = deg x := by rw [hs1]; simp [hx]
        rw [hd1]
        constructor
        · rintro ((h | ⟨h1, -⟩) | ⟨h1, -⟩)
          · exact Or.inl h
          · exact absurd h1 hx
          · exact absurd h1 hx
        · rintro (h | ⟨h1, -⟩)
          · exact Or.inl (Or.inl h)
          · exact absurd h1 hx
    · intro hprox
      exact ih3 (hs3 hprox)

/-! ## The level loop: invariant -/

lemma length_filter_mem_le (l disp proc : List String)
    (hdisj : ∀ x ∈ disp, x ∉ proc) :
    (l.filter (fun p => p ∈ disp)).length ≤ (l.filter (fun p => p ∉ proc)).length := by
  induction l with
  | nil => simp
  | cons a t ih =>
    by_cases had : a ∈ disp
    · rw [List.filter_cons_of_pos (by simpa using had),
        List.filter_cons_of_pos (by simpa using hdisj a had)]
      simpa using ih
    · rw [List.filter_cons_of_neg (by simpa using had)]
      by_cases hap : a ∈ proc
      · rw [List.filter_cons_of_neg (by simpa using hap)]
        exact ih
      · rw [List.filter_cons_of_pos (by simpa using hap)]
        simp only [List.length_cons]
        omega

lemma length_filter_split_proc (l disp proc proc2 : List String)
    (hdisj : ∀ x ∈ disp, x ∉ proc)
    (hproc2 : ∀ x, x ∈ proc2 ↔ x ∈ proc ∨ x ∈ disp) :
    (l.filter (fun p => p ∉ proc2)).length + (l.filter (fun p => p ∈ disp)).length =
      (l.filter (fun p => p ∉ proc)).length := by
  induction l with
  | nil => simp
  | cons a t ih =>
    by_cases had : a ∈ disp
    · have hap : a ∉ proc := hdisj a had
      have hap2 : a ∈ proc2 := (hproc2 a).mpr (Or.inr had)
      rw [List.filter_cons_of_neg (by simpa using hap2),
        List.filter_cons_of_pos (by simpa using had),
        List.filter_cons_of_pos (by simpa using hap)]
      simp only [List.length_cons]
      omega
    · by_cases hap : a ∈ proc
      · have hap2 : a ∈ proc2 := (hproc2 a).mpr (Or.inl hap)
        rw [List.filter_cons_of_neg (by simpa using hap2),
          List.filter_cons_of_neg (by simpa using had),
          List.filter_cons_of_neg (by simpa using hap)]
        exact ih
      · have hap2 : a ∉ proc2 := fun hc => by
          rcases (hproc2 a).mp hc with h | h
          · exact hap h
          · exact had h
        rw [List.filter_cons_of_pos (by simpa using hap2),
          List.filter_cons_of_neg (by simpa using had),
          List.filter_cons_of_pos (by simpa using hap)]
        simp only [List.length_cons]
        omega

/-- Invariant of the `while disponiveis` loop of
`progressao_por_niveis_para`. -/
structure NInv (sub : RedeDisciplinas) (disp proc : List String)
    (deg : String → Int) (niveis : List (List String)) : Prop where
  dnd : disp.Nodup
  dmem : ∀ x ∈ disp, x ∈ chaves sub
  pmem : ∀ x ∈ proc, x ∈ chaves sub
  dpdisj : ∀ x ∈ disp, x ∉ proc
  procEq : ∀ x, x ∈ proc ↔ ∃ L ∈ niveis, x ∈ L
  degEq : ∀ m ∈ chaves sub,
    deg m = (((getPrs sub m).filter (fun p => p ∉ proc)).length : Int)
  ready : ∀ m ∈ chaves sub, (deg m = 0 ↔ m ∈ proc ∨ m ∈ disp)
  lvlNodup : ∀ L ∈ niveis, L.Nodup
  lvlPairwise : niveis.Pairwise (fun L1 L2 => ∀ x ∈ L1, x ∉ L2)
  lvlPrs : ∀ k (hk : k < niveis.length), ∀ c ∈ niveis.get ⟨k, hk⟩,
    ∀ p ∈ getPrs sub c, ∃ j, ∃ hj : j < niveis.length, j < k ∧ p ∈ niveis.get ⟨j, hj⟩
  lvlne : ∀ L ∈ niveis, L ≠ []

lemma ninv_init (sub : RedeDisciplinas) (hwfs : RedeWF sub) :
    NInv sub (fila_inicial sub) [] (grau_inicial sub) [] := by
  have hsub : List.Sublist (fila_inicial sub) (chaves sub) :=
    List.Sublist.map Prod.fst (List.filter_sublist sub)
  constructor
  · exact List.Nodup.sublist hsub hwfs.1
  · exact fun x hx => hsub.subset hx
  · intro x hx; cases hx
  · intro x _ hc; cases hc
  · intro x
    constructor
    · intro h; cases h
    · rintro ⟨L, hL, -⟩; cases hL
  · intro m _
    unfold grau_inicial
    congr 1
    have : (getPrs sub m).filter (fun p => p ∉ ([] : List String)) = getPrs sub m := by
      apply List.filter_eq_self.mpr
      intro a _
      simp
    rw [this]
  · intro m hmk
    constructor
    · intro h0
      refine Or.inr ?_
      obtain ⟨l, hl⟩ := mem_chaves_iff.mp hmk
      have hprs : getPrs sub m = l := getPrs_eq_of_mem hwfs.1 (e := (m, l)) hl
      have hlen : l.length = 0 := by
        unfold grau_inicial at h0
        rw [hprs] at h0
        omega
      unfold fila_inicial
      exact List.mem_map.mpr ⟨(m, l), List.mem_filter.mpr ⟨hl, by simpa using hlen⟩, rfl⟩
    · intro h
      rcases h with h | h
      · cases h
      · unfold fila_inicial at h
        obtain ⟨e, he, rfl⟩ := List.mem_map.mp h
        have h1 := List.mem_filter.mp he
        have h2 : getPrs sub e.1 = e.2 := getPrs_eq_of_mem hwfs.1 h1.1
        unfold grau_inicial
        rw [h2]
        have : e.2.length = 0 := by simpa using h1.2
        omega
  · intro L hL; cases hL
  · exact List.Pairwise.nil
  · intro k hk; simp at hk
  · intro L hL; cases hL

lemma nivLoop_nil (sub : RedeDisciplinas) (nec proc : List String)
    (deg : String → Int) (niveis : List (List String)) :
    nivLoop sub nec [] proc deg niveis = niveis := by
  rw [nivLoop]
  rw [dif_pos rfl]

lemma nivLoop_cons (sub : RedeDisciplinas) (nec : List String)
    {disp : List String} (proc : List String) (deg : String → Int)
    (niveis : List (List String)) (hne : disp ≠ []) :
    nivLoop sub nec disp proc deg niveis =
      nivLoop sub nec
        ((disp.foldl (nivStep sub nec) (deg, [])).2.filter
          (fun x => x ∉ disp.foldl addElem proc))
        (disp.foldl addElem proc)
        (disp.foldl (nivStep sub nec) (deg, [])).1
        (niveis ++ [disp]) := by
  rw [nivLoop]
  rw [dif_neg hne]

lemma length_filter_mem_comm (A B : List String) (hA : A.Nodup) (hB : B.Nodup) :
    (A.filter (fun x => x ∈ B)).length = (B.filter (fun x => x ∈ A)).length := by
  have h1 : (A.filter (fun x => x ∈ B)).Nodup := List.Nodup.filter _ hA
  have h2 : (B.filter (fun x => x ∈ A)).Nodup := List.Nodup.filter _ hB
  rw [← List.toFinset_card_of_nodup h1, ← List.toFinset_card_of_nodup h2]
  congr 1
  ext x
  simp only [List.mem_toFinset, List.mem_filter, decide_eq_true_eq]
  tauto

lemma ninv_step (sub : RedeDisciplinas) (hwfs : RedeWF sub) (nec : List String)
    (hchaves : chaves sub = nec) (disp proc : List String) (deg : String → Int)
    (niveis : List (List String)) (hinv : NInv sub disp proc deg niveis)
    (hne : disp ≠ []) :
    NInv sub
      ((disp.foldl (nivStep sub nec) (deg, [])).2.filter
        (fun x => x ∉ disp.foldl addElem proc))
      (disp.foldl addElem proc)
      (disp.foldl (nivStep sub nec) (deg, [])).1
      (niveis ++ [disp]) := by
  obtain ⟨dnd, dmem, pmem, dpdisj, procEq, degEq, ready, lvlNd, lvlPw, lvlPrs, lvlne⟩ := hinv
  have hndnec : nec.Nodup := hchaves ▸ hwfs.1
  obtain ⟨ho1, ho2, ho3⟩ := nivOuter_spec sub nec hndnec disp deg []
  have hproc2 : ∀ x, x ∈ disp.foldl addElem proc ↔ x ∈ proc ∨ x ∈ disp :=
    fun x => mem_foldl_addElem
  have hprox : ∀ x, x ∈ (disp.foldl (nivStep sub nec) (deg, [])).2 ↔
      x ∈ nec ∧ 1 ≤ deg x ∧
        deg x ≤ ((disp.filter (fun n => n ∈ getPrs sub x)).length : Int) := by
    intro x
    rw [ho2 x]
    simp only [List.not_mem_nil, false_or]
  have hcnteq : ∀ m, (disp.filter (fun n => n ∈ getPrs sub m)).length =
      ((getPrs sub m).filter (fun p => p ∈ disp)).length := by
    intro m
    exact length_filter_mem_comm disp (getPrs sub m) dnd (getPrs_nodup hwfs m)
  have hmemnec : ∀ m, m ∈ chaves sub → m ∈ nec := fun m hm => hchaves ▸ hm
  have hcntzero : ∀ m ∈ chaves sub, deg m = 0 →
      (disp.filter (fun n => n ∈ getPrs sub m)).length = 0 := by
    intro m hm h0
    rw [hcnteq m]
    have hsubproc := prs_subset_of_deg_zero hm (degEq m hm) h0
    have : (getPrs sub m).filter (fun p => p ∈ disp) = [] := by
      rw [List.filter_eq_nil_iff]
      intro p hp
      have := hsubproc p hp
      simp only [decide_eq_true_eq]
      exact fun hc => dpdisj p hc this
    rw [this]
    rfl
  have hdegnonneg : ∀ m ∈ chaves sub, 0 ≤ deg m := by
    intro m hm
    rw [degEq m hm]
    omega
  constructor
  · -- dnd
    exact List.Nodup.filter _ (ho3 List.nodup_nil)
  · -- dmem
    intro x hx
    have h1 := List.mem_of_mem_filter hx
    have h2 := ((hprox x).mp h1).1
    rw [hchaves]
    exact h2
  · -- pmem
    intro x hx
    rcases (hproc2 x).mp hx with h | h
    · exact pmem x h
    · exact dmem x h
  · -- dpdisj
    intro x hx
    have := List.of_mem_filter hx
    simpa using this
  · -- procEq
    intro x
    rw [hproc2 x]
    constructor
    · rintro (h | h)
      · obtain ⟨L, hL, hxL⟩ := (procEq x).mp h
        exact ⟨L, List.mem_append_left _ hL, hxL⟩
      · exact ⟨disp, List.mem_append_right _ (by simp), h⟩
    · rintro ⟨L, hL, hxL⟩
      rcases List.mem_append.mp hL with h | h
      · exact Or.inl ((procEq x).mpr ⟨L, h, hxL⟩)
      · have : L = disp := by simpa using h
        subst this
        exact Or.inr hxL
  · -- degEq
    intro m hm
    simp only [ho1]
    rw [if_pos (hmemnec m hm)]
    rw [degEq m hm]
    have hsplit := length_filter_split_proc (getPrs sub m) disp proc
      (disp.foldl addElem proc) dpdisj hproc2
    rw [hcnteq m]
    omega
  · -- ready
    intro m hm
    simp only [ho1]
    rw [if_pos (hmemnec m hm)]
    constructor
    · intro h0
      by_cases hz : deg m = 0
      · refine Or.inl ((hproc2 m).mpr ?_)
        rcases (ready m hm).mp hz with h | h
        · exact Or.inl h
        · exact Or.inr h
      · have h1 : 1 ≤ deg m := by
          have := hdegnonneg m hm
          omega
        have h2 : deg m ≤ ((disp.filter (fun n => n ∈ getPrs sub m)).length : Int) := by
          omega
        have hmprox : m ∈ (disp.foldl (nivStep sub nec) (deg, [])).2 :=
          (hprox m).mpr ⟨hmemnec m hm, h1, h2⟩
        by_cases hp2 : m ∈ disp.foldl addElem proc
        · exact Or.inl hp2
        · exact Or.inr (List.mem_filter.mpr ⟨hmprox, by simpa using hp2⟩)
    · intro h
      rcases h with h | h
      · have hz : deg m = 0 := by
          rcases (hproc2 m).mp h with h1 | h1
          · exact (ready m hm).mpr (Or.inl h1)
          · exact (ready m hm).mpr (Or.inr h1)
        have := hcntzero m hm hz
        omega
      · have h1 := List.mem_of_mem_filter h
        obtain ⟨-, h2, h3⟩ := (hprox m).mp h1
        have h4 : ((disp.filter (fun n => n ∈ getPrs sub m)).length : Int) ≤ deg m := by
          rw [degEq m hm, hcnteq m]
          exact_mod_cast length_filter_mem_le (getPrs sub m) disp proc dpdisj
        omega
  · -- lvlNodup
    intro L hL
    rcases List.mem_append.mp hL with h | h
    · exact lvlNd L h
    · have : L = disp := by simpa using h
      subst this
      exact dnd
  · -- lvlPairwise
    rw [List.pairwise_append]
    refine ⟨lvlPw, by simp, ?_⟩
    intro L hL L2 hL2 x hxL
    have : L2 = disp := by simpa using hL2
    subst this
    intro hxd
    exact dpdisj x hxd ((procEq x).mpr ⟨L, hL, hxL⟩)
  · -- lvlPrs
    intro k hk c hc p hp
    rw [List.length_append, List.length_singleton] at hk
    by_cases hklt : k < niveis.length
    · rw [List.get_append k hklt] at hc
      obtain ⟨j, hj, hjk, hpj⟩ := lvlPrs k hklt c hc p hp
      refine ⟨j, by rw [List.length_append, List.length_singleton]; omega, hjk, ?_⟩
      rw [List.get_append j hj]
      exact hpj
    · have hkeq : k = niveis.length := by omega
      subst hkeq
      have hcd : c ∈ disp := by
        rwa [List.get_of_append rfl rfl] at hc
      have hck : c ∈ chaves sub := dmem c hcd
      have hz : deg c = 0 := (ready c hck).mpr (Or.inr hcd)
      have hpproc := prs_subset_of_deg_zero hck (degEq c hck) hz p hp
      obtain ⟨L, hL, hpL⟩ := (procEq p).mp hpproc
      obtain ⟨n, hn⟩ := List.mem_iff_get.mp hL
      refine ⟨n.1, by rw [List.length_append, List.length_singleton]; omega, n.2, ?_⟩
      rw [List.get_append n.1 n.2, hn]
      exact hpL
  · -- lvlne
    intro L hL
    rcases List.mem_append.mp hL with h | h
    · exact lvlne L h
    · have : L = disp := by simpa using h
      subst this
      exact hne

lemma nivLoop_append (sub : RedeDisciplinas) (nec : List String) :
    ∀ disp proc deg niveis, ∃ t,
      nivLoop sub nec disp proc deg niveis = niveis ++ t := by
  intro disp proc deg niveis
  induction disp, proc, deg, niveis using nivLoop.induct sub nec with
  | case1 proc deg niveis =>
    exact ⟨[], by rw [nivLoop_nil, List.append_nil]⟩
  | case2 disp proc deg niveis hne dp proc2 disp2 ih =>
    obtain ⟨t, ht⟩ := ih
    refine ⟨[disp] ++ t, ?_⟩
    rw [nivLoop_cons sub nec proc deg niveis hne]
    rw [← List.append_assoc]
    exact ht

lemma nivLoop_inv (sub : RedeDisciplinas) (hwfs : RedeWF sub) (nec : List String)
    (hchaves : chaves sub = nec) :
    ∀ disp proc deg niveis, NInv sub disp proc deg niveis →
      ∃ proc2 deg2, NInv sub [] proc2 deg2 (nivLoop sub nec disp proc deg niveis) := by
  intro disp proc deg niveis
  induction disp, proc, deg, niveis using nivLoop.induct sub nec with
  | case1 proc deg niveis =>
    intro h
    rw [nivLoop_nil]
    exact ⟨proc, deg, h⟩
  | case2 disp proc deg niveis hne dp proc2 disp2 ih =>
    intro h
    have h2 := ninv_step sub hwfs nec hchaves disp proc deg niveis h hne
    obtain ⟨p2, d2, h3⟩ := ih h2
    refine ⟨p2, d2, ?_⟩
    rw [nivLoop_cons sub nec proc deg niveis hne]
    exact h3

/-- At termination every course of the sub-graph has been placed into some
level (provided the sub-graph is acyclic). -/
lemma ninv_terminal_cover (sub : RedeDisciplinas) (hfcs : Fechada sub)
    (hac : ¬TemCicloProp sub) {proc : List String} {deg : String → Int}
    {niveis : List (List String)} (h : NInv sub [] proc deg niveis) :
    ∀ x, (∃ L ∈ niveis, x ∈ L) ↔ x ∈ chaves sub := by
  obtain ⟨-, -, pmem, -, procEq, degEq, ready, -, -, -, -⟩ := h
  intro x
  constructor
  · intro hx
    exact pmem x ((procEq x).mpr hx)
  · intro hx
    refine (procEq x).mp ?_
    by_contra hxp
    set S : Finset String := ((chaves sub).filter (fun m => m ∉ proc)).toFinset with hS
    have hxS : x ∈ S := by
      rw [hS]
      simp only [List.mem_toFinset, List.mem_filter]
      exact ⟨hx, by simpa using hxp⟩
    have hstuck : ∀ m ∈ S, ∃ p ∈ S, Aresta sub p m := by
      intro m hmS
      rw [hS] at hmS
      simp only [List.mem_toFinset, List.mem_filter, decide_eq_true_eq] at hmS
      obtain ⟨hmk, hmp⟩ := hmS
      have hdg : deg m ≠ 0 := by
        intro h0
        rcases (ready m hmk).mp h0 with h1 | h1
        · exact hmp h1
        · cases h1
      have hlen : ((getPrs sub m).filter (fun p => p ∉ proc)).length ≠ 0 := by
        intro h0
        exact hdg (by rw [degEq m hmk]; omega)
      have hne2 : (getPrs sub m).filter (fun p => p ∉ proc) ≠ [] := by
        intro h0
        exact hlen (by rw [h0]; rfl)
      obtain ⟨p, hp⟩ := List.exists_mem_of_ne_nil _ hne2
      have hp2 := List.mem_filter.mp hp
      refine ⟨p, ?_, hp2.1⟩
      rw [hS]
      simp only [List.mem_toFinset, List.mem_filter]
      exact ⟨fechada_getPrs hfcs hp2.1, hp2.2⟩
    exact hac (exists_cycle_of_stuck S ⟨x, hxS⟩ hstuck)

/-- A transitive dependency forces a strictly smaller level index. -/
lemma levels_transGen_lt (sub : RedeDisciplinas) (niveis : List (List String))
    (hprs : ∀ k (hk : k < niveis.length), ∀ c ∈ niveis.get ⟨k, hk⟩,
      ∀ p ∈ getPrs sub c, ∃ j, ∃ hj : j < niveis.length, j < k ∧ p ∈ niveis.get ⟨j, hj⟩)
    {x c : String} (hxc : Relation.TransGen (Aresta sub) x c) :
    ∀ k (hk : k < niveis.length), c ∈ niveis.get ⟨k, hk⟩ →
      ∃ j, ∃ hj : j < niveis.length, j < k ∧ x ∈ niveis.get ⟨j, hj⟩ := by
  induction hxc with
  | single h =>
    intro k hk hc
    exact hprs k hk _ hc _ h
  | tail hxb h ih =>
    intro k hk hc
    obtain ⟨j, hj, hjk, hbj⟩ := hprs k hk _ hc _ h
    obtain ⟨i, hi, hij, hxi⟩ := ih j hj hbj
    exact ⟨i, hi, lt_trans hij hjk, hxi⟩

/-- With pairwise-disjoint levels, the level index of a course is unique. -/
lemma levels_unique {niveis : List (List String)}
    (hpw : niveis.Pairwise (fun L1 L2 => ∀ x ∈ L1, x ∉ L2)) {x : String}
    {i j : Nat} (hi : i < niveis.length) (hj : j < niveis.length)
    (hxi : x ∈ niveis.get ⟨i, hi⟩) (hxj : x ∈ niveis.get ⟨j, hj⟩) : i = j := by
  by_contra hne
  have hpg := List.pairwise_iff_get.mp hpw
  rcases lt_or_gt_of_ne hne with h | h
  · exact hpg ⟨i, hi⟩ ⟨j, hj⟩ h x hxi hxj
  · exact hpg ⟨j, hj⟩ ⟨i, hi⟩ h x hxj hxi

lemma fila_inicial_mem (sub : RedeDisciplinas) (hwfs : RedeWF sub) (x : String) :
    x ∈ fila_inicial sub ↔ x ∈ chaves sub ∧ getPrs sub x = [] := by
  unfold fila_inicial
  constructor
  · intro h
    obtain ⟨e, he, rfl⟩ := List.mem_map.mp h
    have h1 := List.mem_filter.mp he
    have h2 := getPrs_eq_of_mem hwfs.1 h1.1
    refine ⟨List.mem_map.mpr ⟨e, h1.1, rfl⟩, ?_⟩
    rw [h2]
    have : e.2.length = 0 := by simpa using h1.2
    exact List.length_eq_zero.mp this
  · rintro ⟨h1, h2⟩
    obtain ⟨l, hl⟩ := mem_chaves_iff.mp h1
    have h3 : getPrs sub x = l := getPrs_eq_of_mem hwfs.1 (e := (x, l)) hl
    have hl0 : l = [] := by rw [← h3, h2]
    subst hl0
    exact List.mem_map.mpr ⟨(x, []), List.mem_filter.mpr ⟨hl, by simp⟩, rfl⟩

/-- Every guarantee of a successful `progressao_por_niveis_para` run. -/
lemma progressao_ok_spec (g : RedeDisciplinas) (hwf : RedeWF g) {alvo : String}
    {niveis : List (List String)}
    (h : progressao_por_niveis_para g alvo = .ok niveis) :
    (∀ L ∈ niveis, L.Nodup) ∧
      (∀ L ∈ niveis, L ≠ []) ∧
      niveis.Pairwise (fun L1 L2 => ∀ x ∈ L1, x ∉ L2) ∧
      (∀ x, (∃ L ∈ niveis, x ∈ L) ↔ x ∈ necessario g alvo) ∧
      (∀ h0 : 0 < niveis.length, ∀ x, x ∈ niveis.get ⟨0, h0⟩ ↔
        (x ∈ necessario g alvo ∧ ∀ p ∈ getPrs g x, p ∉ necessario g alvo)) ∧
      (∀ k (hk : k < niveis.length), ∀ c ∈ niveis.get ⟨k, hk⟩,
        ∀ p ∈ getPrs g c, p ∈ necessario g alvo →
          ∃ j, ∃ hj : j < niveis.length, j < k ∧ p ∈ niveis.get ⟨j, hj⟩) ∧
      (∃ hne : niveis ≠ [], ∀ x, x ∈ niveis.getLast hne ↔ x = alvo) := by
  obtain ⟨ordem, hpl⟩ : ∃ ordem, plano_de_estudo_para g alvo = .ok ordem := by
    unfold progressao_por_niveis_para at h
    cases hpl : plano_de_estudo_para g alvo with
    | error e => rw [hpl] at h; cases h
    | ok ordem => exact ⟨ordem, rfl⟩
  have hniv : niveis =
      nivLoop (ordem.map (fun n => (n, (getPrs g n).filter (fun p => p ∈ ordem))))
        ordem
        (fila_inicial (ordem.map (fun n => (n, (getPrs g n).filter (fun p => p ∈ ordem)))))
        []
        (grau_inicial (ordem.map (fun n => (n, (getPrs g n).filter (fun p => p ∈ ordem)))))
        [] := by
    unfold progressao_por_niveis_para at h
    rw [hpl] at h
    injection h with h2
    exact h2.symm
  set sub2 := ordem.map (fun n => (n, (getPrs g n).filter (fun p => p ∈ ordem)))
    with hsub2
  obtain ⟨hordnd, hordmem, hacsub, hprecFull, hlast, hordne⟩ := plano_ok_spec g hwf hpl
  have hchaves2 : chaves sub2 = ordem := chaves_mapGraph _ _
  have hget2 : ∀ x, getPrs sub2 x =
      if x ∈ ordem then (getPrs g x).filter (fun p => p ∈ ordem) else [] :=
    fun x => getPrs_mapGraph _ _ x
  have hwfs2 : RedeWF sub2 := by
    constructor
    · rw [hchaves2]; exact hordnd
    · intro e he
      obtain ⟨n, -, rfl⟩ := List.mem_map.mp he
      exact List.Nodup.filter _ (getPrs_nodup hwf n)
  have hfcs2 : Fechada sub2 := by
    intro e he p hp
    obtain ⟨n, -, rfl⟩ := List.mem_map.mp he
    rw [hchaves2]
    simpa using (List.mem_filter.mp hp).2
  have haresta2 : ∀ a b, Aresta sub2 a b ↔ a ∈ ordem ∧ b ∈ ordem ∧ Aresta g a b := by
    intro a b
    unfold Aresta
    rw [hget2 b]
    by_cases hb : b ∈ ordem
    · rw [if_pos hb]
      simp only [List.mem_filter, decide_eq_true_eq]
      tauto
    · rw [if_neg hb]
      simp [hb]
  have harestaN : ∀ a b, Aresta sub2 a b ↔ Aresta (subRede g alvo) a b := by
    intro a b
    rw [haresta2 a b, aresta_subRede_iff]
    have h1 := hordmem a
    have h2 := hordmem b
    tauto
  have hac2 : ¬TemCicloProp sub2 := by
    rintro ⟨x, hx⟩
    exact hacsub ⟨x, Relation.TransGen.mono (fun a b hab => (harestaN a b).mp hab) hx⟩
  obtain ⟨proc2, deg2, hterm⟩ :=
    nivLoop_inv sub2 hwfs2 ordem hchaves2 (fila_inicial sub2) [] (grau_inicial sub2) []
      (ninv_init sub2 hwfs2)
  rw [← hniv] at hterm
  have hcover := ninv_terminal_cover sub2 hfcs2 hac2 hterm
  obtain ⟨-, -, -, -, -, -, -, lvlNd, lvlPw, lvlPrs, lvlne⟩ := hterm
  have hcover2 : ∀ x, (∃ L ∈ niveis, x ∈ L) ↔ x ∈ necessario g alvo := by
    intro x
    rw [hcover x, hchaves2]
    exact hordmem x
  have hmemlvl_nec : ∀ k (hk : k < niveis.length), ∀ c ∈ niveis.get ⟨k, hk⟩,
      c ∈ ordem := by
    intro k hk c hc
    have : ∃ L ∈ niveis, c ∈ L := ⟨niveis.get ⟨k, hk⟩, List.get_mem niveis k hk, hc⟩
    rw [hcover c] at this
    rwa [hchaves2] at this
  refine ⟨lvlNd, lvlne, lvlPw, hcover2, ?_, ?_, ?_⟩
  · -- level 0
    intro h0 x
    have h0eq : niveis.get ⟨0, h0⟩ = fila_inicial sub2 := by
      by_cases hd0 : fila_inicial sub2 = []
      · rw [hd0, nivLoop_nil] at hniv
        rw [hniv] at h0
        simp at h0
      · rw [nivLoop_cons sub2 ordem [] (grau_inicial sub2) [] hd0] at hniv
        obtain ⟨t, ht⟩ := nivLoop_append sub2 ordem
          ((List.foldl (nivStep sub2 ordem) (grau_inicial sub2, [])
            (fila_inicial sub2)).2.filter
            (fun x => x ∉ List.foldl addElem [] (fila_inicial sub2)))
          (List.foldl addElem [] (fila_inicial sub2))
          (List.foldl (nivStep sub2 ordem) (grau_inicial sub2, []) (fila_inicial sub2)).1
          ([] ++ [fila_inicial sub2])
        rw [ht] at hniv
        subst hniv
        simp
    rw [h0eq, fila_inicial_mem sub2 hwfs2 x, hchaves2]
    constructor
    · rintro ⟨h1, h2⟩
      rw [hget2 x, if_pos h1] at h2
      refine ⟨(hordmem x).mp h1, ?_⟩
      intro p hp hpnec
      have : p ∈ (getPrs g x).filter (fun p => p ∈ ordem) :=
        List.mem_filter.mpr ⟨hp, by simpa using (hordmem p).mpr hpnec⟩
      rw [h2] at this
      cases this
    · rintro ⟨h1, h2⟩
      have hx : x ∈ ordem := (hordmem x).mpr h1
      refine ⟨hx, ?_⟩
      rw [hget2 x, if_pos hx]
      rw [List.filter_eq_nil_iff]
      intro p hp
      simp only [decide_eq_true_eq]
      intro hpord
      exact h2 p hp ((hordmem p).mp hpord)
  · -- prerequisites in strictly earlier levels
    intro k hk c hc p hp hpnec
    have hc2 : c ∈ ordem := hmemlvl_nec k hk c hc
    have hp2 : p ∈ getPrs sub2 c := by
      rw [hget2 c, if_pos hc2]
      exact List.mem_filter.mpr ⟨hp, by simpa using (hordmem p).mpr hpnec⟩
    exact lvlPrs k hk c hc p hp2
  · -- the last level is exactly the target
    have halvoNec : alvo ∈ necessario g alvo := alvo_mem_necessario g alvo
    have halvoLvl : ∃ L ∈ niveis, alvo ∈ L := (hcover2 alvo).mpr halvoNec
    have hnivne : niveis ≠ [] := by
      obtain ⟨L, hL, -⟩ := halvoLvl
      exact List.ne_nil_of_mem hL
    refine ⟨hnivne, ?_⟩
    obtain ⟨L0, hL0, halvoL0⟩ := halvoLvl
    obtain ⟨ka, hka⟩ := List.mem_iff_get.mp hL0
    have hlastget := List.getLast_eq_get niveis hnivne
    have hlen1 : niveis.length - 1 < niveis.length := by
      cases niveis with
      | nil => exact absurd rfl hnivne
      | cons a t => simp
    have honly : ∀ x, x ∈ niveis.get ⟨niveis.length - 1, hlen1⟩ → x = alvo := by
      intro x hx
      by_contra hxne
      have hxord : x ∈ ordem := hmemlvl_nec _ hlen1 x hx
      have hxnec : x ∈ necessario g alvo := (hordmem x).mp hxord
      have hxtg : Relation.TransGen (Aresta g) x alvo := by
        rcases (mem_necessario_iff g alvo x).mp hxnec with h1 | h1
        · exact h1
        · exact absurd h1 hxne
      have hxsub : Relation.TransGen (Aresta sub2) x alvo :=
        Relation.TransGen.mono (fun a b hab => (harestaN a b).mpr hab)
          (transGen_subRede_of g halvoNec hxtg)
      obtain ⟨j, hj, hjk, hxj⟩ :=
        levels_transGen_lt sub2 niveis lvlPrs hxsub ka.1 ka.2 (hka ▸ halvoL0)
      have := levels_unique lvlPw hj hlen1 hxj hx
      have hkalt : ka.1 < niveis.length := ka.2
      omega
    intro x
    constructor
    · intro hx
      rw [hlastget] at hx
      exact honly x hx
    · rintro rfl
      obtain ⟨y, hy⟩ := List.exists_mem_of_ne_nil _
        (lvlne _ (List.getLast_mem hnivne))
      have := honly y (by rw [← hlastget]; exact hy)
      subst this
      exact hy

/-! ## Behaviour of the mutation operations -/

lemma find?_append_some {l1 l2 : List (String × List String)}
    {p : String × List String → Bool} {e : String × List String}
    (h : l1.find? p = some e) : (l1 ++ l2).find? p = some e := by
  induction l1 with
  | nil => cases h
  | cons a t ih =>
    rw [List.cons_append]
    rw [List.find?_cons] at h ⊢
    cases hp : p a with
    | true => rw [hp] at h; simpa [hp] using h
    | false =>
      rw [hp] at h
      simpa [hp] using ih h

lemma find?_append_none {l1 l2 : List (String × List String)}
    {p : String × List String → Bool}
    (h : l1.find? p = none) : (l1 ++ l2).find? p = l2.find? p := by
  induction l1 with
  | nil => rfl
  | cons a t ih =>
    rw [List.cons_append]
    rw [List.find?_cons] at h ⊢
    cases hp : p a with
    | true => rw [hp] at h; cases h
    | false =>
      rw [hp] at h
      simpa [hp] using ih h

lemma mem_chaves_adicionar {g : RedeDisciplinas} {d x : String} :
    x ∈ chaves (adicionar_disciplina g d) ↔ x ∈ chaves g ∨ x = d := by
  unfold adicionar_disciplina
  by_cases hd : d ∈ chaves g
  · rw [if_pos hd]
    constructor
    · exact Or.inl
    · rintro (h | rfl)
      · exact h
      · exact hd
  · rw [if_neg hd]
    unfold chaves
    rw [List.map_append]
    simp [chaves]

lemma getPrs_adicionar (g : RedeDisciplinas) (d x : String) :
    getPrs (adicionar_disciplina g d) x = getPrs g x := by
  unfold adicionar_disciplina
  by_cases hd : d ∈ chaves g
  · rw [if_pos hd]
  · rw [if_neg hd]
    unfold getPrs
    cases hf : g.find? (fun e => e.1 == x) with
    | some e => rw [find?_append_some hf]
    | none =>
      rw [find?_append_none hf]
      by_cases hx : x = d
      · subst hx
        simp
      · have : ((d, ([] : List String)).1 == x) = false := by
          simp only [beq_eq_false_iff_ne]
          exact fun h => hx h.symm
        simp [List.find?_cons, this]

lemma mem_chaves_remover {g : RedeDisciplinas} {d x : String} :
    x ∈ chaves (remover_disciplina g d) ↔ x ∈ chaves g ∧ x ≠ d := by
  unfold remover_disciplina
  by_cases hd : d ∈ chaves g
  · rw [if_neg (by simpa using hd)]
    unfold chaves
    constructor
    · intro h
      obtain ⟨e, he, rfl⟩ := List.mem_map.mp h
      obtain ⟨e2, he2, rfl⟩ := List.mem_map.mp he
      have h1 := List.mem_filter.mp he2
      exact ⟨List.mem_map.mpr ⟨e2, h1.1, rfl⟩, by simpa using h1.2⟩
    · rintro ⟨h1, h2⟩
      obtain ⟨e, he, rfl⟩ := List.mem_map.mp h1
      refine List.mem_map.mpr ⟨(e.1, e.2.filter (fun p => p ≠ d)), ?_, rfl⟩
      exact List.mem_map.mpr ⟨e, List.mem_filter.mpr ⟨he, by simpa using h2⟩, rfl⟩
  · rw [if_pos (by simpa using hd)]
    constructor
    · intro h
      refine ⟨h, ?_⟩
      rintro rfl
      exact hd h
    · exact fun h => h.1

lemma not_mem_getPrs_remover (g : RedeDisciplinas) (d : String) (hd : d ∈ chaves g)
    (c : String) : d ∉ getPrs (remover_disciplina g d) c := by
  unfold remover_disciplina
  rw [if_neg (by simpa using hd)]
  unfold getPrs
  cases hf : ((g.filter (fun e => e.1 ≠ d)).map
      (fun e => (e.1, e.2.filter (fun p => p ≠ d)))).find? (fun e => e.1 == c) with
  | none => simp
  | some e =>
    have he := List.mem_of_find?_eq_some hf
    obtain ⟨e2, -, rfl⟩ := List.mem_map.mp he
    intro hc
    have := List.of_mem_filter hc
    simp at this

lemma chaves_atualiza (g : RedeDisciplinas) (d : String)
    (f : List String → List String) : chaves (atualiza g d f) = chaves g := by
  unfold chaves atualiza
  rw [List.map_map]
  apply List.map_congr_left
  intro e _
  by_cases he : e.1 = d
  · simp [he]
  · simp [he]

lemma getPrs_atualiza_subset (g : RedeDisciplinas) (d : String)
    (f : List String → List String) (c p : String)
    (hp : p ∈ getPrs (atualiza g d f) c) :
    ∃ e ∈ g, (p ∈ e.2 ∨ p ∈ f e.2) := by
  unfold getPrs at hp
  cases hf : (atualiza g d f).find? (fun e => e.1 == c) with
  | none => rw [hf] at hp; cases hp
  | some e =>
    rw [hf] at hp
    have he := List.mem_of_find?_eq_some hf
    unfold atualiza at he
    obtain ⟨e2, he2, heq⟩ := List.mem_map.mp he
    by_cases hd : e2.1 = d
    · rw [if_pos hd] at heq
      exact ⟨e2, he2, Or.inr (by rw [← heq] at hp; exact hp)⟩
    · rw [if_neg hd] at heq
      exact ⟨e2, he2, Or.inl (by rw [← heq] at hp; exact hp)⟩

lemma fechada_vazio : Fechada vazio := by
  intro e he
  cases he

lemma fechada_adicionar {g : RedeDisciplinas} (h : Fechada g) (d : String) :
    Fechada (adicionar_disciplina g d) := by
  unfold adicionar_disciplina
  by_cases hd : d ∈ chaves g
  · rw [if_pos hd]
    exact h
  · rw [if_neg hd]
    intro e he p hp
    rcases List.mem_append.mp he with h1 | h1
    · have := h e h1 p hp
      unfold chaves
      rw [List.map_append]
      exact List.mem_append_left _ this
    · have : e = (d, []) := by simpa using h1
      subst this
      cases hp

lemma fechada_remover {g : RedeDisciplinas} (h : Fechada g) (d : String) :
    Fechada (remover_disciplina g d) := by
  intro e he p hp
  unfold remover_disciplina at he
  by_cases hd : d ∈ chaves g
  · rw [if_neg (by simpa using hd)] at he
    obtain ⟨e2, he2, rfl⟩ := List.mem_map.mp he
    have h1 := List.mem_filter.mp he2
    have hpe2 := List.mem_filter.mp hp
    have hpne : p ≠ d := by simpa using hpe2.2
    have hpk : p ∈ chaves g := h e2 h1.1 p hpe2.1
    rw [mem_chaves_remover]
    exact ⟨hpk, hpne⟩
  · rw [if_pos (by simpa using hd)] at he
    have hpk := h e he p hp
    rw [mem_chaves_remover]
    refine ⟨hpk, ?_⟩
    rintro rfl
    exact hd hpk

lemma mem_chaves_adicionar_self (g : RedeDisciplinas) (d : String) :
    d ∈ chaves (adicionar_disciplina g d) :=
  mem_chaves_adicionar.mpr (Or.inr rfl)

lemma mem_chaves_adicionar_of_mem {g : RedeDisciplinas} {x : String} (d : String)
    (h : x ∈ chaves g) : x ∈ chaves (adicionar_disciplina g d) :=
  mem_chaves_adicionar.mpr (Or.inl h)

lemma fechada_adicionar_pre {g : RedeDisciplinas} (h : Fechada g)
    (pre disciplina : String) :
    Fechada (adicionar_pre_requisito g pre disciplina) := by
  unfold adicionar_pre_requisito
  set g2 := adicionar_disciplina (adicionar_disciplina g pre) disciplina with hg2
  have hfc2 : Fechada g2 := fechada_adicionar (fechada_adicionar h pre) disciplina
  have hpre2 : pre ∈ chaves g2 :=
    mem_chaves_adicionar_of_mem disciplina (mem_chaves_adicionar_self g pre)
  intro e he p hp
  unfold atualiza at he
  obtain ⟨e2, he2, heq⟩ := List.mem_map.mp he
  rw [chaves_atualiza]
  by_cases hd : e2.1 = disciplina
  · rw [if_pos hd] at heq
    subst heq
    dsimp only at hp
    rcases mem_addElem.mp hp with h1 | rfl
    · exact hfc2 e2 he2 p h1
    · exact hpre2
  · rw [if_neg hd] at heq
    subst heq
    exact hfc2 e2 he2 p hp

lemma fechada_remover_pre {g : RedeDisciplinas} (h : Fechada g)
    (pre disciplina : String) :
    Fechada (remover_pre_requisito g pre disciplina) := by
  unfold remover_pre_requisito
  by_cases hd : disciplina ∈ chaves g
  · rw [if_pos hd]
    intro e he p hp
    unfold atualiza at he
    obtain ⟨e2, he2, heq⟩ := List.mem_map.mp he
    rw [chaves_atualiza]
    by_cases hd2 : e2.1 = disciplina
    · rw [if_pos hd2] at heq
      subst heq
      dsimp only at hp
      exact h e2 he2 p (List.mem_of_mem_filter hp)
    · rw [if_neg hd2] at heq
      subst heq
      exact h e2 he2 p hp
  · rw [if_neg hd]
    exact h

lemma fechada_applyOp {g : RedeDisciplinas} (h : Fechada g) (op : Op) :
    Fechada (applyOp g op) := by
  cases op with
  | addCourse d => exact fechada_adicionar h d
  | removeCourse d => exact fechada_remover h d
  | addPrereq p d => exact fechada_adicionar_pre h p d
  | removePrereq p d => exact fechada_remover_pre h p d

lemma fechada_applyOps : ∀ (ops : List Op) (g : RedeDisciplinas),
    Fechada g → Fechada (applyOps g ops) := by
  intro ops
  induction ops with
  | nil => intro g h; exact h
  | cons op t ih =>
    intro g h
    unfold applyOps at ih ⊢
    simp only [List.foldl_cons]
    exact ih (applyOp g op) (fechada_applyOp h op)

/-! ## Concrete graphs used as test inputs -/

/-- The diamond of the specification: `A→B, A→C, B→D, C→D`. -/
def gDiamante : RedeDisciplinas :=
  [("A", []), ("B", ["A"]), ("C", ["A"]), ("D", ["B", "C"])]

/-- A two-course cycle `a→b, b→a`. -/
def gCiclo2 : RedeDisciplinas := [("a", ["b"]), ("b", ["a"])]

/-- The three-course cycle of the specification: `A→B, B→C, C→A`. -/
def gCiclo3 : RedeDisciplinas := [("A", ["C"]), ("B", ["A"]), ("C", ["B"])]

/-- A graph is acyclic whenever its edges strictly increase some rank. -/
lemma acyclic_of_rank (g : RedeDisciplinas) (w : String → Nat)
    (hw : ∀ a b, Aresta g a b → w a < w b) : ¬TemCicloProp g := by
  rintro ⟨x, hx⟩
  have hmono : ∀ {a b : String}, Relation.TransGen (Aresta g) a b → w a < w b := by
    intro a b h
    induction h with
    | single h1 => exact hw _ _ h1
    | tail h1 h2 ih => exact lt_trans ih (hw _ _ h2)
  exact lt_irrefl _ (hmono hx)

lemma gDiamante_rank : ∀ a b, Aresta gDiamante a b →
    (if a = "A" then 0 else if a = "D" then 2 else 1) <
      (if b = "A" then 0 else if b = "D" then 2 else 1) := by
  intro a b h
  have hb : b ∈ chaves gDiamante := aresta_mem_chaves h
  have hb2 : b = "A" ∨ b = "B" ∨ b = "C" ∨ b = "D" := by
    have : chaves gDiamante = ["A", "B", "C", "D"] := rfl
    rw [this] at hb
    simpa using hb
  unfold Aresta at h
  rcases hb2 with rfl | rfl | rfl | rfl
  · have : getPrs gDiamante "A" = [] := rfl
    rw [this] at h
    cases h
  · have : getPrs gDiamante "B" = ["A"] := rfl
    rw [this] at h
    have : a = "A" := by simpa using h
    subst this
    decide
  · have : getPrs gDiamante "C" = ["A"] := rfl
    rw [this] at h
    have : a = "A" := by simpa using h
    subst this
    decide
  · have : getPrs gDiamante "D" = ["B", "C"] := rfl
    rw [this] at h
    have : a = "B" ∨ a = "C" := by simpa using h
    rcases this with rfl | rfl <;> decide

lemma gDiamante_acyclic : ¬TemCicloProp gDiamante :=
  acyclic_of_rank gDiamante _ gDiamante_rank

lemma transGen_fst_chaves {g : RedeDisciplinas} (hfc : Fechada g) {a b : String}
    (h : Relation.TransGen (Aresta g) a b) : a ∈ chaves g := by
  obtain ⟨c, hc, -⟩ := Relation.TransGen.head'_iff.mp h
  exact fechada_getPrs hfc hc

instance decRedeWF (g : RedeDisciplinas) : Decidable (RedeWF g) :=
  decidable_of_iff ((chaves g).Nodup ∧ ∀ e ∈ g, e.2.Nodup) Iff.rfl

instance decFechada (g : RedeDisciplinas) : Decidable (Fechada g) :=
  decidable_of_iff (∀ e ∈ g, ∀ p ∈ e.2, p ∈ chaves g) Iff.rfl

/-! ## The claims -/

/-- C1: on every well-formed, dangling-free, acyclic graph,
`ordenacao_topologica` succeeds with a permutation of all courses in which
every direct prerequisite appears strictly before its dependent. -/
theorem claim_C1 (g : RedeDisciplinas) (hwf : RedeWF g) (hfc : Fechada g)
    (hac : ¬TemCicloProp g) :
    ∃ ordem, ordenacao_topologica g = .ok ordem ∧ ordem.Perm (disciplinas g) ∧
      ∀ c p, p ∈ getPrs g c → antes ordem p c := by
  have hlen := (kahn_length_iff g hwf hfc).mpr hac
  refine ⟨kahn g, ?_, kahn_perm g hwf hfc hac, ?_⟩
  · unfold ordenacao_topologica
    rw [if_pos hlen]
  · intro c p hp
    obtain ⟨-, -, hprec, hcov⟩ := kahn_spec g hwf hfc
    have hc : c ∈ chaves g := aresta_mem_chaves (show Aresta g p c from hp)
    exact hprec c (hcov hac c hc) p hp

/-- Witness for C1 at the specification's diamond graph. -/
theorem claim_C1_witness :
    RedeWF gDiamante ∧ Fechada gDiamante ∧ ¬TemCicloProp gDiamante ∧
      (∃ ordem, ordenacao_topologica gDiamante = .ok ordem ∧
        ordem.Perm (disciplinas gDiamante) ∧
        ∀ c p, p ∈ getPrs gDiamante c → antes ordem p c) :=
  ⟨by decide, by decide, gDiamante_acyclic,
    claim_C1 gDiamante (by decide) (by decide) gDiamante_acyclic⟩

/-- C4: `ordenacao_topologica` raises `CycleError` exactly on cyclic graphs,
and `tem_ciclo` converts this into a boolean (`false` on the empty graph). -/
theorem claim_C4 (g : RedeDisciplinas) (hwf : RedeWF g) (hfc : Fechada g) :
    (ordenacao_topologica g = .error Err.cycleDetected ↔ TemCicloProp g) ∧
      (tem_ciclo g = true ↔ TemCicloProp g) ∧
      tem_ciclo vazio = false := by
  have hiff := kahn_length_iff g hwf hfc
  have h1 : ordenacao_topologica g = .error Err.cycleDetected ↔ TemCicloProp g := by
    unfold ordenacao_topologica
    by_cases hlen : (kahn g).length = g.length
    · rw [if_pos hlen]
      constructor
      · intro h; cases h
      · intro hcy; exact absurd hcy (hiff.mp hlen)
    · rw [if_neg hlen]
      constructor
      · intro _
        by_contra hcy
        exact hlen (hiff.mpr hcy)
      · intro _; rfl
  have h2 : tem_ciclo g = true ↔ TemCicloProp g := by
    unfold tem_ciclo
    cases ho : ordenacao_topologica g with
    | ok l =>
      constructor
      · intro h; cases h
      · intro hcy
        rw [h1.mpr hcy] at ho
        cases ho
    | error e =>
      cases e with
      | unknownCourse =>
        exfalso
        unfold ordenacao_topologica at ho
        by_cases hlen : (kahn g).length = g.length
        · rw [if_pos hlen] at ho; cases ho
        · rw [if_neg hlen] at ho; cases ho
      | cycleDetected =>
        constructor
        · intro _; exact h1.mp ho
        · intro _; rfl
  have h3 : tem_ciclo vazio = false := by
    have h0 : ordenacao_topologica vazio = .ok [] := by
      unfold ordenacao_topologica kahn
      rw [show fila_inicial vazio = [] from rfl, kahnLoop_nil]
      rfl
    unfold tem_ciclo
    rw [h0]
  exact ⟨h1, h2, h3⟩

/-- Witness for C4 at the specification's three-course cycle. -/
theorem claim_C4_witness :
    RedeWF gCiclo3 ∧ Fechada gCiclo3 ∧ (tem_ciclo gCiclo3 = true ↔ TemCicloProp gCiclo3) :=
  ⟨by decide, by decide, (claim_C4 gCiclo3 (by decide) (by decide)).2.1⟩

/-- C5 (as stated) is false: `existe_dependencia g a a` can return `true`
without a self-loop edge on `a`, as soon as `a` lies on a longer cycle. -/
theorem claim_C5_counterexample :
    existe_dependencia gCiclo2 "a" "a" = true ∧ "a" ∉ getPrs gCiclo2 "a" := by
  constructor
  · refine (existe_dependencia_iff gCiclo2 "a" "a").mpr ⟨by decide, by decide, ?_⟩
    exact Relation.TransGen.head
      (show ("a" : String) ∈ getPrs gCiclo2 "b" by decide)
      (Relation.TransGen.single (show ("b" : String) ∈ getPrs gCiclo2 "a" by decide))
  · decide

/-- C5 (amended): unknown endpoints give `false`; `existe_dependencia g a a`
is `false` unless `a` lies on a directed cycle through `a` (a self-loop being
one case); and for a known `b` it agrees with membership in
`todos_prerequisitos g b`. -/
theorem claim_C5 (g : RedeDisciplinas) (a b : String) (hfc : Fechada g) :
    ((a ∉ chaves g ∨ b ∉ chaves g) → existe_dependencia g a b = false) ∧
      (existe_dependencia g a a = true ↔
        (a ∈ chaves g ∧ Relation.TransGen (Aresta g) a a)) ∧
      (b ∈ chaves g → (existe_dependencia g a b = true ↔
        ∃ l, todos_prerequisitos g b = .ok l ∧ a ∈ l)) := by
  refine ⟨?_, ?_, ?_⟩
  · intro h
    unfold existe_dependencia
    rw [if_pos (by tauto)]
  · rw [existe_dependencia_iff]
    constructor
    · rintro ⟨h1, -, h3⟩
      exact ⟨h1, h3⟩
    · rintro ⟨h1, h2⟩
      exact ⟨h1, h1, h2⟩
  · intro hb
    rw [existe_dependencia_iff]
    constructor
    · rintro ⟨-, -, htg⟩
      refine ⟨todosLoop g (getPrs g b) [], ?_, (mem_todosLoop_iff g b a).mpr htg⟩
      unfold todos_prerequisitos
      rw [if_pos hb]
    · rintro ⟨l, hl, hal⟩
      unfold todos_prerequisitos at hl
      rw [if_pos hb] at hl
      injection hl with hl
      subst hl
      have htg := (mem_todosLoop_iff g b a).mp hal
      exact ⟨transGen_fst_chaves hfc htg, hb, htg⟩

/-- Witness for C5 (amended) at the two-course cycle. -/
theorem claim_C5_witness :
    Fechada gCiclo2 ∧
      (existe_dependencia gCiclo2 "a" "a" = true ↔
        ("a" ∈ chaves gCiclo2 ∧ Relation.TransGen (Aresta gCiclo2) "a" "a")) :=
  ⟨by decide, (claim_C5 gCiclo2 "a" "a" (by decide)).2.1⟩

/-- C6: `todos_prerequisitos` raises exactly on unknown courses, returns the
set of courses from which the target is reachable along prerequisite edges,
visits each course at most once (duplicate-free result), and on the diamond
returns exactly `{A, B, C}` for target `D`. -/
theorem claim_C6 (g : RedeDisciplinas) (d : String) :
    (d ∉ chaves g → todos_prerequisitos g d = .error Err.unknownCourse) ∧
      (d ∈ chaves g → ∃ l, todos_prerequisitos g d = .ok l ∧ l.Nodup ∧
        ∀ x, (x ∈ l ↔ Relation.TransGen (Aresta g) x d)) ∧
      (∃ l, todos_prerequisitos gDiamante "D" = .ok l ∧
        ∀ x, (x ∈ l ↔ (x = "A" ∨ x = "B" ∨ x = "C"))) := by
  refine ⟨?_, ?_, ?_⟩
  · intro hd
    unfold todos_prerequisitos
    rw [if_neg hd]
  · intro hd
    refine ⟨todosLoop g (getPrs g d) [], ?_, ?_, mem_todosLoop_iff g d⟩
    · unfold todos_prerequisitos
      rw [if_pos hd]
    · exact todosLoop_nodup g (getPrs g d) [] List.nodup_nil
  · refine ⟨todosLoop gDiamante (getPrs gDiamante "D") [], ?_, ?_⟩
    · unfold todos_prerequisitos
      rw [if_pos (by decide)]
    · intro x
      rw [mem_todosLoop_iff]
      constructor
      · intro htg
        obtain ⟨c, hc, -⟩ := Relation.TransGen.head'_iff.mp htg
        have hck : c ∈ chaves gDiamante := aresta_mem_chaves hc
        have hc4 : c = "A" ∨ c = "B" ∨ c = "C" ∨ c = "D" := by
          rw [show chaves gDiamante = ["A", "B", "C", "D"] from rfl] at hck
          simpa using hck
        unfold Aresta at hc
        rcases hc4 with rfl | rfl | rfl | rfl
        · rw [show getPrs gDiamante "A" = [] from rfl] at hc
          cases hc
        · rw [show getPrs gDiamante "B" = ["A"] from rfl] at hc
          exact Or.inl (by simpa using hc)
        · rw [show getPrs gDiamante "C" = ["A"] from rfl] at hc
          exact Or.inl (by simpa using hc)
        · rw [show getPrs gDiamante "D" = ["B", "C"] from rfl] at hc
          have : x = "B" ∨ x = "C" := by simpa using hc
          rcases this with rfl | rfl
          · exact Or.inr (Or.inl rfl)
          · exact Or.inr (Or.inr rfl)
      · rintro (rfl | rfl | rfl)
        · exact Relation.TransGen.head
            (show ("A" : String) ∈ getPrs gDiamante "B" by decide)
            (Relation.TransGen.single
              (show ("B" : String) ∈ getPrs gDiamante "D" by decide))
        · exact Relation.TransGen.single
            (show ("B" : String) ∈ getPrs gDiamante "D" by decide)
        · exact Relation.TransGen.single
            (show ("C" : String) ∈ getPrs gDiamante "D" by decide)

/-- Witness for C6: the unknown-course branch at a concrete input. -/
theorem claim_C6_witness :
    todos_prerequisitos gDiamante "Z" = .error Err.unknownCourse :=
  (claim_C6 gDiamante "Z").1 (by decide)

/-- C2: a successful study plan is a duplicate-free linear order consisting
exactly of `todos_prerequisitos alvo` plus `alvo`, it ends with `alvo`, every
element precedes everything that (transitively) depends on it, and the plan
raises `CycleError` exactly when the induced sub-graph on the required set has
a cycle, independently of cycles elsewhere. -/
theorem claim_C2 (g : RedeDisciplinas) (alvo : String) (hwf : RedeWF g)
    (halvo : alvo ∈ chaves g) :
    (∀ ordem, plano_de_estudo_para g alvo = .ok ordem →
      ordem.Nodup ∧
        (∃ l, todos_prerequisitos g alvo = .ok l ∧
          ∀ x, (x ∈ ordem ↔ x ∈ l ∨ x = alvo)) ∧
        ordem.getLast? = some alvo ∧
        (∀ x y, x ∈ ordem → y ∈ ordem →
          Relation.TransGen (Aresta g) x y → antes ordem x y)) ∧
      (plano_de_estudo_para g alvo = .error Err.cycleDetected ↔
        TemCicloProp (subRede g alvo)) := by
  constructor
  · intro ordem hok
    obtain ⟨hnd, hmem, hac, hprec, hlastF, hne⟩ := plano_ok_spec g hwf hok
    refine ⟨hnd, ⟨todosLoop g (getPrs g alvo) [], ?_, ?_⟩, ?_, ?_⟩
    · unfold todos_prerequisitos
      rw [if_pos halvo]
    · intro x
      rw [hmem x, mem_necessario_iff, mem_todosLoop_iff]
    · rw [List.getLast?_eq_getLast ordem hne, hlastF hne]
    · intro x y _ hy htg
      exact hprec x y hy htg
  · exact plano_cycle_iff g hwf halvo

/-- Witness for C2 at the diamond. -/
theorem claim_C2_witness :
    RedeWF gDiamante ∧ "D" ∈ chaves gDiamante ∧
      (plano_de_estudo_para gDiamante "D" = .error Err.cycleDetected ↔
        TemCicloProp (subRede gDiamante "D")) :=
  ⟨by decide, by decide, (claim_C2 gDiamante "D" (by decide) (by decide)).2⟩

/-- C3: on a known target with an acyclic required sub-graph, the level
progression succeeds; its levels are duplicate-free and pairwise disjoint,
their union is exactly `todos_prerequisitos alvo` plus `alvo`, level 0 holds
exactly the required courses with no required prerequisite, every course's
required prerequisites lie in strictly earlier levels, and the last level
contains the target. -/
theorem claim_C3 (g : RedeDisciplinas) (alvo : String) (hwf : RedeWF g)
    (halvo : alvo ∈ chaves g) (hac : ¬TemCicloProp (subRede g alvo)) :
    ∃ niveis, progressao_por_niveis_para g alvo = .ok niveis ∧
      (∀ L ∈ niveis, L.Nodup) ∧
      niveis.Pairwise (fun L1 L2 => ∀ x ∈ L1, x ∉ L2) ∧
      (∃ l, todos_prerequisitos g alvo = .ok l ∧
        ∀ x, ((∃ L ∈ niveis, x ∈ L) ↔ (x ∈ l ∨ x = alvo))) ∧
      (∀ h0 : 0 < niveis.length, ∀ x, (x ∈ niveis.get ⟨0, h0⟩ ↔
        (x ∈ necessario g alvo ∧ ∀ p ∈ getPrs g x, p ∉ necessario g alvo))) ∧
      (∀ k (hk : k < niveis.length), ∀ c ∈ niveis.get ⟨k, hk⟩,
        ∀ p ∈ getPrs g c, p ∈ necessario g alvo →
          ∃ j, ∃ hj : j < niveis.length, j < k ∧ p ∈ niveis.get ⟨j, hj⟩) ∧
      (∃ hne : niveis ≠ [], alvo ∈ niveis.getLast hne) := by
  have hwfs := subRede_wf g hwf alvo
  have hfcs := subRede_fechada g alvo
  have hlen : (kahn (subRede g alvo)).length = (subRede g alvo).length :=
    (kahn_length_iff _ hwfs hfcs).mpr hac
  have hplano : plano_de_estudo_para g alvo = .ok (kahn (subRede g alvo)) :=
    (plano_eq_ok_iff g halvo).mpr ⟨rfl, hlen⟩
  obtain ⟨niveis, hok⟩ : ∃ niveis, progressao_por_niveis_para g alvo = .ok niveis :=
    ⟨_, by unfold progressao_por_niveis_para; rw [hplano]⟩
  obtain ⟨hnodup, -, hpw, hcover, hlvl0, hlvlprs, hlast⟩ := progressao_ok_spec g hwf hok
  refine ⟨niveis, hok, hnodup, hpw, ?_, hlvl0, hlvlprs, ?_⟩
  · refine ⟨todosLoop g (getPrs g alvo) [], ?_, ?_⟩
    · unfold todos_prerequisitos
      rw [if_pos halvo]
    · intro x
      rw [hcover x, mem_necessario_iff, mem_todosLoop_iff]
  · obtain ⟨hne2, hiff⟩ := hlast
    exact ⟨hne2, (hiff alvo).mpr rfl⟩

/-- Witness for C3 at the diamond. -/
theorem claim_C3_witness :
    RedeWF gDiamante ∧ "D" ∈ chaves gDiamante ∧
      ¬TemCicloProp (subRede gDiamante "D") ∧
      (∃ niveis, progressao_por_niveis_para gDiamante "D" = .ok niveis) := by
  have hwf : RedeWF gDiamante := by decide
  have hacsub : ¬TemCicloProp (subRede gDiamante "D") := by
    rintro ⟨x, hx⟩
    exact gDiamante_acyclic ⟨x, transGen_subRede_mono gDiamante "D" hx⟩
  obtain ⟨niveis, hok, -⟩ := claim_C3 gDiamante "D" hwf (by decide) hacsub
  exact ⟨hwf, by decide, hacsub, niveis, hok⟩

/-- C9 (implicit): whenever the level progression returns, its final level is
exactly the singleton of the target. -/
theorem claim_C9 (g : RedeDisciplinas) (alvo : String) (niveis : List (List String))
    (hwf : RedeWF g) (hok : progressao_por_niveis_para g alvo = .ok niveis) :
    ∃ hne : niveis ≠ [], ∀ x, (x ∈ niveis.getLast hne ↔ x = alvo) :=
  (progressao_ok_spec g hwf hok).2.2.2.2.2.2

/-- Witness for C9 at the diamond. -/
theorem claim_C9_witness :
    RedeWF gDiamante ∧
      ∃ niveis, progressao_por_niveis_para gDiamante "D" = .ok niveis ∧
        ∃ hne : niveis ≠ [], ∀ x, (x ∈ niveis.getLast hne ↔ x = "D") := by
  have hwf : RedeWF gDiamante := by decide
  have hacsub : ¬TemCicloProp (subRede gDiamante "D") := by
    rintro ⟨x, hx⟩
    exact gDiamante_acyclic ⟨x, transGen_subRede_mono gDiamante "D" hx⟩
  have hlen : (kahn (subRede gDiamante "D")).length = (subRede gDiamante "D").length :=
    (kahn_length_iff _ (subRede_wf gDiamante hwf "D")
      (subRede_fechada gDiamante "D")).mpr hacsub
  have hplano : plano_de_estudo_para gDiamante "D" =
      .ok (kahn (subRede gDiamante "D")) :=
    (plano_eq_ok_iff gDiamante (by decide)).mpr ⟨rfl, hlen⟩
  obtain ⟨niveis, hok⟩ :
      ∃ niveis, progressao_por_niveis_para gDiamante "D" = .ok niveis :=
    ⟨_, by unfold progressao_por_niveis_para; rw [hplano]⟩
  exact ⟨hwf, niveis, hok, claim_C9 gDiamante "D" niveis hwf hok⟩

/-- C7: mutation sequences from the empty graph keep every referenced
prerequisite a key (no dangling edge): `adicionar_pre_requisito` creates both
endpoints, and after `remover_disciplina` the removed course is in no
remaining prerequisite set. -/
theorem claim_C7 :
    (∀ ops : List Op, Fechada (applyOps vazio ops)) ∧
      (∀ (g : RedeDisciplinas) (pre c : String),
        pre ∈ chaves (adicionar_pre_requisito g pre c) ∧
          c ∈ chaves (adicionar_pre_requisito g pre c)) ∧
      (∀ (ops : List Op) (x c : String),
        x ∉ getPrs (remover_disciplina (applyOps vazio ops) x) c) := by
  refine ⟨fun ops => fechada_applyOps ops vazio fechada_vazio, ?_, ?_⟩
  · intro g pre c
    unfold adicionar_pre_requisito
    rw [chaves_atualiza]
    exact ⟨mem_chaves_adicionar_of_mem c (mem_chaves_adicionar_self g pre),
      mem_chaves_adicionar_self _ c⟩
  · intro ops x c
    have hfc := fechada_applyOps ops vazio fechada_vazio
    by_cases hx : x ∈ chaves (applyOps vazio ops)
    · exact not_mem_getPrs_remover _ x hx c
    · unfold remover_disciplina
      rw [if_pos hx]
      intro hc
      exact hx (fechada_getPrs hfc hc)

/-- Witness for C7: a concrete mutation sequence keeps the invariant. -/
theorem claim_C7_witness :
    Fechada (applyOps vazio
      [Op.addPrereq "A" "B", Op.addPrereq "B" "C", Op.removeCourse "B"]) :=
  claim_C7.1 _

/-- C8: removing an unknown course is a no-op; after removal the course is
unknown to every query (`KeyError` from the strict ones, `false` from
`existe_dependencia`) and is gone from every remaining prerequisite set. -/
theorem claim_C8 (g : RedeDisciplinas) (x : String) (hfc : Fechada g) :
    (x ∉ chaves g → remover_disciplina g x = g) ∧
      x ∉ chaves (remover_disciplina g x) ∧
      prerequisitos_diretos (remover_disciplina g x) x = .error Err.unknownCourse ∧
      todos_prerequisitos (remover_disciplina g x) x = .error Err.unknownCourse ∧
      plano_de_estudo_para (remover_disciplina g x) x = .error Err.unknownCourse ∧
      (∀ y, existe_dependencia (remover_disciplina g x) x y = false ∧
        existe_dependencia (remover_disciplina g x) y x = false) ∧
      (∀ c, x ∉ getPrs (remover_disciplina g x) c) := by
  have hxk : x ∉ chaves (remover_disciplina g x) := by
    rw [mem_chaves_remover]
    rintro ⟨-, h⟩
    exact h rfl
  refine ⟨?_, hxk, ?_, ?_, plano_unknown _ hxk, ?_, ?_⟩
  · intro h
    unfold remover_disciplina
    rw [if_pos h]
  · unfold prerequisitos_diretos
    rw [if_neg hxk]
  · unfold todos_prerequisitos
    rw [if_neg hxk]
  · intro y
    constructor
    · unfold existe_dependencia
      rw [if_pos (Or.inr hxk)]
    · unfold existe_dependencia
      rw [if_pos (Or.inl hxk)]
  · intro c
    by_cases hx : x ∈ chaves g
    · exact not_mem_getPrs_remover g x hx c
    · unfold remover_disciplina
      rw [if_pos hx]
      intro hc
      exact hx (fechada_getPrs hfc hc)

/-- Witness for C8: removing `B` from the diamond. -/
theorem claim_C8_witness :
    Fechada gDiamante ∧
      "B" ∉ chaves (remover_disciplina gDiamante "B") ∧
      prerequisitos_diretos (remover_disciplina gDiamante "B") "B" =
        .error Err.unknownCourse ∧
      "B" ∉ getPrs (remover_disciplina gDiamante "B") "D" := by
  have h := claim_C8 gDiamante "B" (by decide)
  exact ⟨by decide, h.2.1, h.2.2.1, h.2.2.2.2.2.2 "D"⟩

/-- C10: every query, in state-passing form, returns the graph unchanged;
only the four mutations ever produce a different graph. -/
theorem claim_C10 (g : RedeDisciplinas) (d a b alvo : String) :
    (disciplinasST g).1 = g ∧ (prerequisitos_diretosST g d).1 = g ∧
      (todos_prerequisitosST g d).1 = g ∧ (existe_dependenciaST g a b).1 = g ∧
      (tem_cicloST g).1 = g ∧ (ordenacao_topologicaST g).1 = g ∧
      (plano_de_estudo_paraST g alvo).1 = g ∧
      (progressao_por_niveis_paraST g alvo).1 = g :=
  ⟨rfl, rfl, rfl, rfl, rfl, rfl, rfl, rfl⟩
